import Mathlib

/-!
Shallow embedding of the reservation ledger and schedule reindexer of
`yoga_bot.py` (SQLite-backed Telegram bot).  The two SQL tables
`yoga_classes(id, name, max_participants)` and
`registrations(user_id, class_id, participant_count)` are modelled as Lean
lists; each `DatabaseManager` method and each relevant aiogram handler body
is translated into a pure function on that state.  SQL `INTEGER` columns
become `Int`; `ORDER BY` clauses become an insertion sort on the relevant
column; `SELECT DISTINCT` becomes `List.dedup`.
-/

namespace YogaBot

/-- One row of the `yoga_classes` table: `id, name, max_participants`
(the `created_at` column is never read by any query and is omitted). -/
structure YogaClass where
  id : Int
  name : String
  max_participants : Int
deriving DecidableEq, Repr

/-- One row of the `registrations` table: `user_id, class_id,
participant_count` (the surrogate `id` and `created_at` columns are never
read by any query and are omitted). -/
structure Registration where
  user_id : Int
  class_id : Int
  participant_count : Int
deriving DecidableEq, Repr

/-- The persisted store: both tables, in physical (insertion) row order.
The `settings` table is not part of the ledger core and is omitted. -/
structure DB where
  classes : List YogaClass
  regs : List Registration
deriving DecidableEq, Repr

/-- Row predicate for `WHERE user_id = ? AND class_id = ?`. -/
def regMatch (user_id class_id : Int) (r : Registration) : Bool :=
  r.user_id == user_id && r.class_id == class_id

/-- `ORDER BY id` over the `yoga_classes` table. -/
def sortClasses (cs : List YogaClass) : List YogaClass :=
  cs.insertionSort (fun a b => a.id ≤ b.id)

/-- `ORDER BY user_id` over a list of registration rows. -/
def sortRegsByUser (rs : List Registration) : List Registration :=
  rs.insertionSort (fun a b => a.user_id ≤ b.user_id)

/-- SQL-join helper: for each class row emit a block of result rows. -/
def joinRows (f : YogaClass → List ρ) : List YogaClass → List ρ
  | [] => []
  | c :: cs => f c ++ joinRows f cs

/-- `get_yoga_classes`: `SELECT id, name, max_participants FROM yoga_classes
ORDER BY id`.  (`get_all_yoga_classes` runs the identical query.) -/
def get_yoga_classes (s : DB) : List YogaClass :=
  sortClasses s.classes

/-- `get_total_participants`: `SELECT COALESCE(SUM(participant_count), 0)
FROM registrations WHERE class_id = ?`. -/
def get_total_participants (class_id : Int) (s : DB) : Int :=
  ((s.regs.filter (fun r => r.class_id == class_id)).map
    (·.participant_count)).sum

/-- `get_class_registrations`: `SELECT user_id, participant_count FROM
registrations WHERE class_id = ?` (no ORDER BY: physical row order). -/
def get_class_registrations (class_id : Int) (s : DB) : List (Int × Int) :=
  (s.regs.filter (fun r => r.class_id == class_id)).map
    (fun r => (r.user_id, r.participant_count))

/-- `get_user_registrations`: `SELECT r.class_id, yc.name,
r.participant_count FROM registrations r JOIN yoga_classes yc ON
r.class_id = yc.id WHERE r.user_id = ? ORDER BY yc.id`. -/
def get_user_registrations (user_id : Int) (s : DB) : List (Int × String × Int) :=
  joinRows
    (fun yc =>
      (s.regs.filter (fun r => r.user_id == user_id && r.class_id == yc.id)).map
        (fun r => (yc.id, yc.name, r.participant_count)))
    (get_yoga_classes s)

/-- `get_all_registrations`: `SELECT yc.name, r.user_id,
r.participant_count FROM registrations r JOIN yoga_classes yc ON
r.class_id = yc.id ORDER BY yc.id, r.user_id`. -/
def get_all_registrations (s : DB) : List (String × Int × Int) :=
  joinRows
    (fun yc =>
      (sortRegsByUser (s.regs.filter (fun r => r.class_id == yc.id))).map
        (fun r => (yc.name, r.user_id, r.participant_count)))
    (get_yoga_classes s)

/-- `get_registered_users_for_class`: `SELECT DISTINCT user_id FROM
registrations WHERE class_id = ?`. -/
def get_registered_users_for_class (class_id : Int) (s : DB) : List Int :=
  ((s.regs.filter (fun r => r.class_id == class_id)).map (·.user_id)).dedup

/-- `get_all_registered_users`: `SELECT DISTINCT user_id FROM registrations`. -/
def get_all_registered_users (s : DB) : List Int :=
  (s.regs.map (·.user_id)).dedup

/-- `get_total_registrations_count`: `SELECT COUNT(*) FROM registrations`. -/
def get_total_registrations_count (s : DB) : Int :=
  s.regs.length

/-- `register_user`: reads the caller's existing row for the pair, and
either `UPDATE ... SET participant_count = <existing + delta>` (the SQL
updates every row matching the pair, setting the absolute value computed
from the first fetched row) or `INSERT` a fresh row. -/
def register_user (user_id class_id participant_count : Int) (s : DB) : DB :=
  match s.regs.find? (regMatch user_id class_id) with
  | some existing =>
    { s with regs := s.regs.map (fun r =>
        if regMatch user_id class_id r then
          { r with participant_count := existing.participant_count + participant_count }
        else r) }
  | none =>
    { s with regs := s.regs ++ [⟨user_id, class_id, participant_count⟩] }

/-- `delete_user_registration`: with `all_participants` the row for the
pair is deleted outright; otherwise the current count is fetched and the
row is decremented by one when it exceeds 1, else deleted.  No branch ever
raises when the pair has no row: the DELETE simply affects zero rows. -/
def delete_user_registration (user_id class_id : Int) (all_participants : Bool)
    (s : DB) : DB :=
  if all_participants then
    { s with regs := s.regs.filter (fun r => !(regMatch user_id class_id r)) }
  else
    match s.regs.find? (regMatch user_id class_id) with
    | some current_count =>
      if current_count.participant_count > 1 then
        { s with regs := s.regs.map (fun r =>
            if regMatch user_id class_id r then
              { r with participant_count := r.participant_count - 1 }
            else r) }
      else
        { s with regs := s.regs.filter (fun r => !(regMatch user_id class_id r)) }
    | none =>
      { s with regs := s.regs.filter (fun r => !(regMatch user_id class_id r)) }

/-- `delete_yoga_class`: executes only `DELETE FROM yoga_classes WHERE
id = ?`.  The schema declares `FOREIGN KEY (class_id) REFERENCES
yoga_classes(id) ON DELETE CASCADE`, but the program never issues
`PRAGMA foreign_keys = ON`, and SQLite leaves foreign-key enforcement
(including cascades) off by default — so registration rows referencing the
deleted class are NOT removed. -/
def delete_yoga_class (class_id : Int) (s : DB) : DB :=
  { s with classes := s.classes.filter (fun c => !(c.id == class_id)) }

/-- `clear_all_classes`: `DELETE FROM yoga_classes; DELETE FROM
registrations`. -/
def clear_all_classes (_s : DB) : DB :=
  ⟨[], []⟩

/-- `next((c for c in classes if c['id'] == class_id), None)` over
`get_yoga_classes` — the class lookup used by the handlers. -/
def lookupClass (class_id : Int) (s : DB) : Option YogaClass :=
  (get_yoga_classes s).find? (fun c => c.id == class_id)

/-- Core of the `register_handler` callback (the reserve operation): look
the class up; reject if missing; reject ("все места заняты") when the
session's current total has reached `max_participants`; otherwise register
one seat for the caller.  Returns whether a seat was actually registered,
with the resulting store. -/
def register_handler (user_id class_id : Int) (s : DB) : Bool × DB :=
  match lookupClass class_id s with
  | none => (false, s)
  | some yoga_class =>
    if get_total_participants class_id s ≥ yoga_class.max_participants then
      (false, s)
    else
      (true, register_user user_id class_id 1 s)

/-- Core of the `confirm_delete_class` callback: collect the affected
users for notification, then delete the class row; `none` when the class
id does not exist (the handler returns early). -/
def confirm_delete_class (class_id : Int) (s : DB) : Option (List Int × DB) :=
  match lookupClass class_id s with
  | none => none
  | some _ =>
    some (get_registered_users_for_class class_id s, delete_yoga_class class_id s)

/-- Core of the `confirm_delete_all_schedule` callback: collect all users
with registrations for notification, then clear both tables. -/
def confirm_delete_all_schedule (s : DB) : List Int × DB :=
  (get_all_registered_users s, clear_all_classes s)

/-! ### `update_class_order` (the schedule reindexer) -/

/-- Insert `x` so that it ends up at (0-based) index `n` (append when
`n ≥ length`). -/
def listInsertAt (xs : List α) (n : Nat) (x : α) : List α :=
  xs.take n ++ x :: xs.drop n

/-- Python `list.insert` with an `int` index: a negative index counts from
the end (floored at 0), an index past the end appends. -/
def pyInsert (xs : List Int) (i : Int) (x : Int) : List Int :=
  let n : Int := xs.length
  let j : Int := if i < 0 then max (n + i) 0 else min i n
  listInsertAt xs j.toNat x

/-- The reordered id list computed by `update_class_order` before the
rewrite: `class_ids.remove(class_id)`, then
`new_position = min(new_position, len(class_ids))`, then
`class_ids.insert(new_position, class_id)`. -/
def reorderIds (class_id new_position : Int) (all_classes : List Int) : List Int :=
  let class_ids := all_classes.erase class_id
  let pos := min new_position (class_ids.length : Int)
  pyInsert class_ids pos class_id

/-- The python dict `id_mapping` built by
`for new_id, old_id in enumerate(class_ids, 1): id_mapping[old_id] = new_id`,
looked up at `old`: later assignments override earlier ones, so the last
occurrence of `old` in the list wins.  `k` is the enumeration counter. -/
def idMapGo (old : Int) (k : Int) : List Int → Option Int
  | [] => none
  | x :: xs =>
    match idMapGo old (k + 1) xs with
    | some n => some n
    | none => if x = old then some k else none

/-- `id_mapping[old]` for the order list `order` (`enumerate(..., 1)`). -/
def idMapOf (order : List Int) (old : Int) : Option Int :=
  idMapGo old 1 order

/-- The `INSERT INTO yoga_classes (id, ...) SELECT ?, name,
max_participants FROM temp_classes WHERE id = ?` loop: for the `k`-th id
of the new order (counting from 1) copy every matching saved row under the
fresh id `k`. -/
def buildClassesGo (temp_classes : List YogaClass) (k : Int) :
    List Int → List YogaClass
  | [] => []
  | old :: rest =>
    ((temp_classes.filter (fun c => c.id == old)).map
      (fun c => ⟨k, c.name, c.max_participants⟩))
      ++ buildClassesGo temp_classes (k + 1) rest

/-- The registration-transfer loop: each saved row is re-inserted with
`new_class_id = id_mapping[old_class_id]`; a class id absent from the
mapping raises `KeyError` (possible when a registration row dangles). -/
def remapRegs (order : List Int) : List Registration → Except Unit (List Registration)
  | [] => .ok []
  | r :: rs =>
    match idMapOf order r.class_id with
    | some n => (remapRegs order rs).map (fun rest => { r with class_id := n } :: rest)
    | none => .error ()

/-- The total remap applied to one row when every referenced class is in
`order` (helper for stating what the successful rewrite does). -/
def remapFn (order : List Int) (r : Registration) : Registration :=
  { r with class_id := (idMapOf order r.class_id).getD r.class_id }

/-- Injected environment failure: `failAt = some k` makes the `k`-th
statement of the try-block raise, modelling an arbitrary exception during
the multi-step rewrite (every mutation happens inside the single
transaction that is only committed at the very end). -/
def chkFail (failAt : Option Nat) (k : Nat) : Except Unit Unit :=
  if failAt = some k then .error () else .ok ()

/-- The try-block of `update_class_order`: snapshot both tables into temp
tables, clear the real tables, re-insert the classes renumbered 1..N in
the new order, and re-insert every registration through `id_mapping`.
Returns the state to be committed, or an error when any statement raises
(injected via `failAt`, or the `KeyError` on a dangling registration). -/
def tryRewrite (failAt : Option Nat) (order : List Int) (s : DB) :
    Except Unit DB := do
  chkFail failAt 0                      -- CREATE TEMPORARY TABLE temp_classes
  let temp_classes := s.classes
  chkFail failAt 1                      -- CREATE TEMPORARY TABLE temp_registrations
  let temp_regs := s.regs
  chkFail failAt 2                      -- DELETE FROM registrations / yoga_classes
  chkFail failAt 3                      -- INSERT loop over the new class order
  let newClasses := buildClassesGo temp_classes 1 order
  chkFail failAt 4                      -- SELECT + INSERT loop over temp_registrations
  let newRegs ← remapRegs order temp_regs
  chkFail failAt 5                      -- DROP the temp tables
  pure ⟨newClasses, newRegs⟩

/-- `update_class_order(class_id, new_position)`: returns `False` when the
schedule is empty or the id is unknown; otherwise computes the new order
and runs the rewrite inside one transaction — `conn.commit()` on success
(returning `True`), `conn.rollback()` on any exception (returning
`False`).  The rollback restores the transaction-start snapshot, which is
the entry state because every statement before the try-block only reads. -/
def update_class_order (failAt : Option Nat) (class_id new_position : Int)
    (s : DB) : Bool × DB :=
  let all_classes := (get_yoga_classes s).map (·.id)
  if all_classes = [] then (false, s)
  else if class_id ∈ all_classes then
    match tryRewrite failAt (reorderIds class_id new_position all_classes) s with
    | .ok d => (true, d)
    | .error _ => (false, s)
  else (false, s)

/-- Core of the `process_reorder_position` handler: reject a non-positive
position outright (no database call); convert the 1-based position to a
0-based index, putting any position past the session count at the end;
then call `update_class_order`. -/
def process_reorder_position (class_id : Int) (new_position : Int) (s : DB) :
    Bool × DB :=
  if new_position ≤ 0 then (false, s)
  else
    let total_classes : Int := (get_yoga_classes s).length
    let idx := if new_position > total_classes then total_classes - 1
               else new_position - 1
    update_class_order none class_id idx s

/-! ### Models taken from the spec's words (for comparison only) -/

/-- Spec error taxonomy for `release` (§7). -/
inductive ReleaseError where
  | notFound
deriving DecidableEq, Repr

/-- Modelled from the spec: `release(userId, sessionId, releaseAll)` as
§4.1 words it — "if no Reservation exists, fails with `NotFoundError`.
If `releaseAll` is true, or the existing `seatCount` is 1, deletes the
Reservation entirely.  Otherwise decrements `seatCount` by 1."  Used only
to compare the spec's wording with `delete_user_registration`. -/
def release_spec (user_id class_id : Int) (releaseAll : Bool) (s : DB) :
    Except ReleaseError DB :=
  match s.regs.find? (regMatch user_id class_id) with
  | none => .error .notFound
  | some r =>
    if releaseAll || r.participant_count == 1 then
      .ok { s with regs := s.regs.filter (fun x => !(regMatch user_id class_id x)) }
    else
      .ok { s with regs := s.regs.map (fun x =>
        if regMatch user_id class_id x then
          { x with participant_count := x.participant_count - 1 }
        else x) }

/-- Modelled from the spec: the reordered id list as §4.2 words it — "take
the ordered list of existing session ids, remove `sessionId`, clamp
`targetPosition` into `[1, count]` where count is the list length *after*
removal, reinsert `sessionId` at that position".  Reinsertion at 1-based
position `q` places the id before the `q`-th remaining element. -/
def specReorderIds (class_id : Int) (targetPosition : Int)
    (all_classes : List Int) : List Int :=
  let removed := all_classes.erase class_id
  let q := max 1 (min targetPosition (removed.length : Int))
  listInsertAt removed (q - 1).toNat class_id

/-- The amended reordered id list: identical to `specReorderIds` except
that the clamp range is `[1, count + 1]`, so a target at or past the end
lands at the end. -/
def amendedReorderIds (class_id : Int) (targetPosition : Int)
    (all_classes : List Int) : List Int :=
  let removed := all_classes.erase class_id
  let q := max 1 (min targetPosition ((removed.length : Int) + 1))
  listInsertAt removed (q - 1).toNat class_id

/-! ### Generic list helpers -/

theorem filter_not_of_filter_eq_nil {α : Type _} {p : α → Bool} :
    ∀ {l : List α}, l.filter p = [] → l.filter (fun a => !(p a)) = l := by
  intro l h
  induction l with
  | nil => rfl
  | cons x xs ih =>
    rw [List.filter_cons] at h ⊢
    by_cases hx : p x
    · simp [hx] at h
    · simp only [hx, Bool.not_false, if_true] at h ⊢
      simp only [Bool.false_eq_true, if_false] at h
      simp [h, ih h, Bool.not_eq_true, hx]

theorem find?_eq_none_of_filter_eq_nil {α : Type _} {p : α → Bool} {l : List α}
    (h : l.filter p = []) : l.find? p = none := by
  rw [List.find?_eq_none]
  intro x hx hpx
  have : x ∈ l.filter p := List.mem_filter.mpr ⟨hx, hpx⟩
  simp [h] at this

theorem exists_split_of_filter_eq_singleton {α : Type _} {p : α → Bool}
    {x : α} : ∀ {l : List α}, l.filter p = [x] →
    ∃ A B, l = A ++ x :: B ∧ (∀ a ∈ A, ¬p a) ∧ (∀ b ∈ B, ¬p b) ∧ p x := by
  intro l h
  induction l with
  | nil => simp at h
  | cons y ys ih =>
    rw [List.filter_cons] at h
    by_cases hy : p y
    · simp only [hy, if_true] at h
      obtain ⟨hyx, hys⟩ := List.cons.inj h
      refine ⟨[], ys, by simp [hyx], by simp, ?_, hyx ▸ hy⟩
      intro b hb hpb
      have : b ∈ ys.filter p := List.mem_filter.mpr ⟨hb, hpb⟩
      simp [hys] at this
    · simp only [hy, Bool.false_eq_true, if_false] at h
      obtain ⟨A, B, hl, hA, hB, hx⟩ := ih h
      exact ⟨y :: A, B, by simp [hl], by simpa [hy] using hA, hB, hx⟩

theorem find?_eq_some_of_filter_eq_singleton {α : Type _} {p : α → Bool}
    {l : List α} {x : α} (h : l.filter p = [x]) : l.find? p = some x := by
  obtain ⟨A, B, hl, hA, _, hx⟩ := exists_split_of_filter_eq_singleton h
  subst hl
  rw [List.find?_append]
  have : A.find? p = none := by
    rw [List.find?_eq_none]; intro a ha; exact hA a ha
  simp [this, List.find?_cons, hx]

theorem map_eq_self_of_id_on {α : Type _} {g : α → α} {l : List α}
    (h : ∀ a ∈ l, g a = a) : l.map g = l := by
  rw [List.map_congr_left h]
  exact List.map_id l

@[simp]
theorem joinRows_nil {ρ : Type _} (f : YogaClass → List ρ) : joinRows f [] = [] := rfl

@[simp]
theorem joinRows_cons {ρ : Type _} (f : YogaClass → List ρ) (c : YogaClass)
    (cs : List YogaClass) : joinRows f (c :: cs) = f c ++ joinRows f cs := rfl

theorem joinRows_map {ρ σ : Type _} (f : YogaClass → List ρ) (g : ρ → σ) :
    ∀ cs : List YogaClass, (joinRows f cs).map g = joinRows (fun c => (f c).map g) cs := by
  intro cs
  induction cs with
  | nil => rfl
  | cons c cs ih => simp [ih]

/-! ### Facts about `regMatch` -/

theorem regMatch_iff {u c : Int} {r : Registration} :
    regMatch u c r = true ↔ r.user_id = u ∧ r.class_id = c := by
  simp [regMatch]

theorem regMatch_eta {u c : Int} {r : Registration} (h : regMatch u c r = true) :
    r = ⟨u, c, r.participant_count⟩ := by
  obtain ⟨h1, h2⟩ := regMatch_iff.mp h
  cases r
  simp_all

/-! ### C10: releasing a non-existent reservation is a silent no-op -/

theorem release_missing_noop {u c : Int} {all : Bool} {s : DB}
    (h : s.regs.filter (regMatch u c) = []) :
    delete_user_registration u c all s = s := by
  have hnot := filter_not_of_filter_eq_nil h
  have hfind := find?_eq_none_of_filter_eq_nil h
  cases s with
  | mk classes regs =>
    cases all with
    | true => simp [delete_user_registration, hnot]
    | false => simp [delete_user_registration, hfind, hnot]

/-- C10: for every `userId` and `sessionId` with no existing reservation
row, `delete_user_registration` — with `all_participants` either true or
false — silently succeeds (it is a total operation raising nothing) and
leaves the store completely unchanged. -/
theorem c10_release_missing_silent_noop (u c : Int) (all : Bool) (s : DB)
    (h : s.regs.filter (regMatch u c) = []) :
    delete_user_registration u c all s = s :=
  release_missing_noop h

/-- Witness for C10 at a concrete store with a class and an unrelated
registration. -/
theorem c10_release_missing_silent_noop_witness :
    delete_user_registration 7 1 false ⟨[⟨1, "A", 2⟩], [⟨9, 1, 1⟩]⟩
      = ⟨[⟨1, "A", 2⟩], [⟨9, 1, 1⟩]⟩ :=
  c10_release_missing_silent_noop 7 1 false ⟨[⟨1, "A", 2⟩], [⟨9, 1, 1⟩]⟩ (by decide)

/-! ### C5: release semantics -/

/-- C5 counterexample: the claim says release "fails with NotFoundError
when no Reservation exists for that pair", but `delete_user_registration`
raises nothing: at a store with no reservation it returns the store
unchanged, whereas the spec-worded model fails. -/
theorem c5_counterexample :
    delete_user_registration 7 1 false ⟨[⟨1, "A", 2⟩], []⟩ = ⟨[⟨1, "A", 2⟩], []⟩ ∧
    release_spec 7 1 false ⟨[⟨1, "A", 2⟩], []⟩ = Except.error ReleaseError.notFound := by
  constructor
  · exact release_missing_noop (by decide)
  · rfl

/-- C5 (amended): when no reservation exists for the pair, release
silently succeeds with no state change; when exactly one exists, it
deletes the record entirely if `all_participants` is true or the existing
seat count is at most 1, and otherwise decrements the seat count of the
pair's row by exactly 1. -/
theorem c5_release_amended (u c : Int) (all : Bool) (s : DB) :
    (s.regs.filter (regMatch u c) = [] → delete_user_registration u c all s = s) ∧
    (∀ r, s.regs.filter (regMatch u c) = [r] →
      ((all = true ∨ r.participant_count ≤ 1) →
        delete_user_registration u c all s
          = { s with regs := s.regs.filter (fun x => !(regMatch u c x)) }) ∧
      (all = false → 1 < r.participant_count →
        delete_user_registration u c all s
          = { s with regs := s.regs.map (fun x =>
              if regMatch u c x then
                { x with participant_count := x.participant_count - 1 }
              else x) })) := by
  refine ⟨fun h => release_missing_noop h, fun r hr => ?_⟩
  have hfind : s.regs.find? (regMatch u c) = some r :=
    find?_eq_some_of_filter_eq_singleton hr
  constructor
  · rintro (hall | hle)
    · subst hall; rfl
    · cases all with
      | true => rfl
      | false =>
        simp only [delete_user_registration, Bool.false_eq_true, if_false, hfind]
        rw [if_neg (by omega)]
  · intro hall hgt
    subst hall
    simp only [delete_user_registration, Bool.false_eq_true, if_false, hfind]
    rw [if_pos (by omega)]

/-- Witness for C5's amended theorem: a pair with two seats is decremented
to one, and with `all_participants` it is removed. -/
theorem c5_release_amended_witness :
    delete_user_registration 7 1 false ⟨[⟨1, "A", 5⟩], [⟨7, 1, 2⟩]⟩
        = ⟨[⟨1, "A", 5⟩], [⟨7, 1, 1⟩]⟩ ∧
    delete_user_registration 7 1 true ⟨[⟨1, "A", 5⟩], [⟨7, 1, 2⟩]⟩
        = ⟨[⟨1, "A", 5⟩], []⟩ := by
  constructor
  · have h := ((c5_release_amended 7 1 false ⟨[⟨1, "A", 5⟩], [⟨7, 1, 2⟩]⟩).2
      ⟨7, 1, 2⟩ (by decide)).2 rfl (by decide)
    rw [h]; decide
  · have h := ((c5_release_amended 7 1 true ⟨[⟨1, "A", 5⟩], [⟨7, 1, 2⟩]⟩).2
      ⟨7, 1, 2⟩ (by decide)).1 (Or.inl rfl)
    rw [h]; decide

/-! ### C4: delete cascade is not enforced (code bug) -/

/-- C4 failing input: one class (id 1) with one registration (user 7,
2 seats).  The delete flow returns the affected user correctly, but the
registration row survives the class deletion because the program never
enables SQLite foreign-key enforcement: `get_total_registrations_count`
still sees it and `get_class_registrations 1` still returns it (a dangling
reference), even though the JOIN-based `get_all_registrations` hides it. -/
theorem c4_delete_leaves_dangling_registration :
    confirm_delete_class 1 ⟨[⟨1, "A", 5⟩], [⟨7, 1, 2⟩]⟩
      = some ([7], ⟨[], [⟨7, 1, 2⟩]⟩) ∧
    get_total_registrations_count ⟨[], [⟨7, 1, 2⟩]⟩ = 1 ∧
    get_class_registrations 1 ⟨[], [⟨7, 1, 2⟩]⟩ = [(7, 2)] ∧
    get_all_registrations ⟨[], [⟨7, 1, 2⟩]⟩ = [] := by
  refine ⟨?_, rfl, rfl, rfl⟩
  decide

/-! ### C8: clearing the whole schedule -/

/-- C8: `confirm_delete_all_schedule` removes every session and every
reservation, returns exactly the distinct users that had any reservation
(without duplicates), applying it twice equals applying it once, and on an
empty store it is a no-op returning the empty list. -/
theorem c8_clear_all_schedule (s : DB) :
    (confirm_delete_all_schedule s).2 = ⟨[], []⟩ ∧
    (∀ u : Int, u ∈ (confirm_delete_all_schedule s).1 ↔ ∃ r ∈ s.regs, r.user_id = u) ∧
    (confirm_delete_all_schedule s).1.Nodup ∧
    confirm_delete_all_schedule (confirm_delete_all_schedule s).2 = ([], ⟨[], []⟩) ∧
    (s.classes = [] → s.regs = [] → confirm_delete_all_schedule s = ([], s)) := by
  refine ⟨rfl, ?_, ?_, rfl, ?_⟩
  · intro u
    simp [confirm_delete_all_schedule, get_all_registered_users, List.mem_dedup,
      List.mem_map]
  · exact List.nodup_dedup _
  · intro h1 h2
    cases s with
    | mk classes regs =>
      simp only at h1 h2
      subst h1; subst h2
      rfl

/-- Witness for C8 at a concrete store with two reservations of the same
user, and at the empty store. -/
theorem c8_clear_all_schedule_witness :
    (confirm_delete_all_schedule ⟨[⟨1, "A", 5⟩], [⟨7, 1, 1⟩, ⟨7, 1, 2⟩]⟩).2 = ⟨[], []⟩ ∧
    confirm_delete_all_schedule ⟨[], []⟩ = ([], ⟨[], []⟩) := by
  constructor
  · exact (c8_clear_all_schedule ⟨[⟨1, "A", 5⟩], [⟨7, 1, 1⟩, ⟨7, 1, 2⟩]⟩).1
  · exact (c8_clear_all_schedule ⟨[], []⟩).2.2.2.2 rfl rfl

/-! ### C1 / C7: capacity and single-row invariants for reserve/release -/

/-- Seat total of a class over a raw registration list (so that lemmas can
be stated list-locally); `get_total_participants class_id s` is exactly
`totalFor class_id s.regs`. -/
def totalFor (class_id : Int) (rs : List Registration) : Int :=
  ((rs.filter (fun r => r.class_id == class_id)).map (·.participant_count)).sum

theorem get_total_participants_eq (class_id : Int) (s : DB) :
    get_total_participants class_id s = totalFor class_id s.regs := rfl

theorem totalFor_append (c : Int) (rs ts : List Registration) :
    totalFor c (rs ++ ts) = totalFor c rs + totalFor c ts := by
  simp [totalFor, List.filter_append]

theorem totalFor_cons (c : Int) (r : Registration) (rs : List Registration) :
    totalFor c (r :: rs)
      = (if r.class_id = c then r.participant_count else 0) + totalFor c rs := by
  by_cases h : r.class_id = c
  · simp [totalFor, List.filter_cons, h]
  · simp [totalFor, List.filter_cons, h]

theorem totalFor_filter_le (c : Int) (q : Registration → Bool)
    {rs : List Registration} (h : ∀ r ∈ rs, 0 ≤ r.participant_count) :
    totalFor c (rs.filter q) ≤ totalFor c rs := by
  induction rs with
  | nil => simp [totalFor]
  | cons r rs ih =>
    have hr := h r (by simp)
    have ih' := ih (fun x hx => h x (by simp [hx]))
    rw [List.filter_cons]
    by_cases hq : q r
    · simp only [hq, if_true]
      rw [totalFor_cons, totalFor_cons]
      omega
    · simp only [hq, Bool.false_eq_true, if_false]
      rw [totalFor_cons]
      have : (0:Int) ≤ if r.class_id = c then r.participant_count else 0 := by
        split <;> omega
      omega

theorem totalFor_map_le (c : Int) (g : Registration → Registration)
    {rs : List Registration}
    (hcls : ∀ r ∈ rs, (g r).class_id = r.class_id)
    (hcnt : ∀ r ∈ rs, (g r).participant_count ≤ r.participant_count) :
    totalFor c (rs.map g) ≤ totalFor c rs := by
  induction rs with
  | nil => simp [totalFor]
  | cons r rs ih =>
    have h1 := hcls r (by simp)
    have h2 := hcnt r (by simp)
    have ih' := ih (fun x hx => hcls x (by simp [hx])) (fun x hx => hcnt x (by simp [hx]))
    rw [List.map_cons, totalFor_cons, totalFor_cons, h1]
    split <;> omega

/-- Uniqueness of (userId, sessionId) pairs across the registration table,
stated row-pairwise so that it is decidable on concrete stores. -/
def PairUnique (rs : List Registration) : Prop :=
  rs.Pairwise (fun a b => ¬(a.user_id = b.user_id ∧ a.class_id = b.class_id))

theorem filter_pair_of_find {u c : Int} {rs : List Registration}
    {ex : Registration} (hpw : PairUnique rs)
    (hfind : rs.find? (regMatch u c) = some ex) :
    rs.filter (regMatch u c) = [ex] := by
  induction rs with
  | nil => simp at hfind
  | cons y ys ih =>
    rw [PairUnique, List.pairwise_cons] at hpw
    obtain ⟨hy, hys⟩ := hpw
    rw [List.find?_cons] at hfind
    by_cases hmy : regMatch u c y
    · simp only [hmy, Option.some.injEq] at hfind
      subst hfind
      rw [List.filter_cons, if_pos hmy]
      have : ys.filter (regMatch u c) = [] := by
        rw [List.filter_eq_nil_iff]
        intro b hb hmb
        obtain ⟨hyu, hyc⟩ := regMatch_iff.mp hmy
        obtain ⟨hbu, hbc⟩ := regMatch_iff.mp hmb
        exact hy b hb ⟨by rw [hyu, hbu], by rw [hyc, hbc]⟩
      rw [this]
    · simp only [hmy, Bool.false_eq_true, if_false] at hfind
      rw [List.filter_cons, if_neg (by simp [hmy])]
      exact ih hys hfind

theorem register_user_classes (u c n : Int) (s : DB) :
    (register_user u c n s).classes = s.classes := by
  unfold register_user
  cases s.regs.find? (regMatch u c) <;> rfl

theorem delete_user_registration_classes (u c : Int) (all : Bool) (s : DB) :
    (delete_user_registration u c all s).classes = s.classes := by
  unfold delete_user_registration
  cases all with
  | true => rfl
  | false =>
    simp only [Bool.false_eq_true, if_false]
    cases s.regs.find? (regMatch u c) with
    | none => rfl
    | some r =>
      by_cases h : r.participant_count > 1
      · simp [h]
      · simp [h]

/-- The row rewrite performed by the `UPDATE` in `register_user`. -/
def registerUpd (u c newCount : Int) (r : Registration) : Registration :=
  if regMatch u c r then { r with participant_count := newCount } else r

theorem registerUpd_user (u c n : Int) (r : Registration) :
    (registerUpd u c n r).user_id = r.user_id := by
  unfold registerUpd; split <;> rfl

theorem registerUpd_class (u c n : Int) (r : Registration) :
    (registerUpd u c n r).class_id = r.class_id := by
  unfold registerUpd; split <;> rfl

theorem register_user_regs_absent {u c : Int} (n : Int) {s : DB}
    (hfind : s.regs.find? (regMatch u c) = none) :
    (register_user u c n s).regs = s.regs ++ [⟨u, c, n⟩] := by
  unfold register_user
  rw [hfind]

theorem register_user_regs_present {u c : Int} (n : Int) {s : DB}
    {ex : Registration} (hfind : s.regs.find? (regMatch u c) = some ex) :
    (register_user u c n s).regs
      = s.regs.map (registerUpd u c (ex.participant_count + n)) := by
  unfold register_user
  rw [hfind]
  rfl

theorem register_user_total {u c n : Int} {s : DB} (hpw : PairUnique s.regs)
    (c' : Int) :
    totalFor c' ((register_user u c n s).regs)
      = totalFor c' s.regs + (if c' = c then n else 0) := by
  cases hfind : s.regs.find? (regMatch u c) with
  | none =>
    rw [register_user_regs_absent n hfind, totalFor_append, totalFor_cons]
    have h0 : totalFor c' ([] : List Registration) = 0 := rfl
    by_cases h : c' = c
    · rw [if_pos (show (⟨u, c, n⟩ : Registration).class_id = c' from h.symm),
        if_pos h, h0]
      simp
    · rw [if_neg (show ¬(⟨u, c, n⟩ : Registration).class_id = c' from
          fun hh => h hh.symm), if_neg h, h0]
      simp
  | some ex =>
    rw [register_user_regs_present n hfind]
    obtain ⟨A, B, hsplit, hA, hB, hex⟩ :=
      exists_split_of_filter_eq_singleton (filter_pair_of_find hpw hfind)
    obtain ⟨hexu, hexc⟩ := regMatch_iff.mp hex
    rw [hsplit, List.map_append, List.map_cons,
      map_eq_self_of_id_on (fun a ha => by simp [registerUpd, hA a ha]),
      map_eq_self_of_id_on (fun b hb => by simp [registerUpd, hB b hb]),
      totalFor_append, totalFor_append, totalFor_cons, totalFor_cons,
      registerUpd, if_pos hex]
    by_cases h : c' = c
    · simp only [hexc, h, if_true]
      omega
    · have : ¬ (ex.class_id = c') := by rw [hexc]; exact fun hh => h hh.symm
      simp only [this, if_false]
      omega

theorem lookupClass_spec {c : Int} {s : DB} {yc : YogaClass}
    (h : lookupClass c s = some yc) : yc ∈ s.classes ∧ yc.id = c := by
  unfold lookupClass at h
  have hmem := List.mem_of_find?_eq_some h
  have hpred := List.find?_some h
  refine ⟨?_, by simpa using hpred⟩
  exact ((List.perm_insertionSort _ s.classes).mem_iff).mp hmem

/-- Well-formedness of the store: unique class ids, at most one
registration row per (user, class) pair, positive seat counts, and every
class within capacity. -/
def WF (s : DB) : Prop :=
  (s.classes.map (·.id)).Nodup ∧
  PairUnique s.regs ∧
  (∀ r ∈ s.regs, 1 ≤ r.participant_count) ∧
  (∀ yc ∈ s.classes, get_total_participants yc.id s ≤ yc.max_participants)

instance (rs : List Registration) : Decidable (PairUnique rs) :=
  List.instDecidablePairwise rs

instance (s : DB) : Decidable (WF s) :=
  instDecidableAnd

theorem WF_register_handler {u c : Int} {s : DB} (hwf : WF s) :
    WF (register_handler u c s).2 := by
  obtain ⟨hnd, hpw, hcnt, hcap⟩ := hwf
  unfold register_handler
  cases hlk : lookupClass c s with
  | none => exact ⟨hnd, hpw, hcnt, hcap⟩
  | some yc =>
    by_cases hfull : get_total_participants c s ≥ yc.max_participants
    · simp only [hfull, if_true]
      exact ⟨hnd, hpw, hcnt, hcap⟩
    · simp only [hfull, if_false]
      obtain ⟨hycmem, hycid⟩ := lookupClass_spec hlk
      refine ⟨by rw [register_user_classes]; exact hnd, ?_, ?_, ?_⟩
      · -- pair uniqueness is preserved
        cases hfind : s.regs.find? (regMatch u c) with
        | none =>
          rw [PairUnique, register_user_regs_absent 1 hfind, List.pairwise_append]
          refine ⟨hpw, by simp, ?_⟩
          intro a ha b hb
          simp only [List.mem_singleton] at hb
          subst hb
          rw [List.find?_eq_none] at hfind
          intro ⟨h1, h2⟩
          exact hfind a ha (regMatch_iff.mpr ⟨h1, h2⟩)
        | some ex =>
          rw [PairUnique, register_user_regs_present 1 hfind, List.pairwise_map]
          refine hpw.imp_of_mem ?_
          intro a b _ _ hab
          simpa [registerUpd_user, registerUpd_class] using hab
      · -- counts stay at least 1
        cases hfind : s.regs.find? (regMatch u c) with
        | none =>
          rw [register_user_regs_absent 1 hfind]
          intro r hr
          rcases List.mem_append.mp hr with h | h
          · exact hcnt r h
          · simp only [List.mem_singleton] at h
            subst h
            exact le_refl 1
        | some ex =>
          rw [register_user_regs_present 1 hfind]
          intro r hr
          obtain ⟨r0, hr0, hr0e⟩ := List.mem_map.mp hr
          subst hr0e
          have hex : 1 ≤ ex.participant_count :=
            hcnt ex (List.mem_of_find?_eq_some hfind)
          have h0 := hcnt r0 hr0
          unfold registerUpd
          split
          · show (1 : Int) ≤ ex.participant_count + 1
            omega
          · exact h0
      · -- capacity bound is preserved
        intro yc' hyc'
        rw [register_user_classes] at hyc'
        rw [get_total_participants_eq, register_user_total hpw,
          ← get_total_participants_eq]
        by_cases hid : yc'.id = c
        · have : yc' = yc := List.inj_on_of_nodup_map hnd hyc' hycmem
            (by rw [hid, hycid])
          subst this
          rw [if_pos hid, hid]
          omega
        · rw [if_neg hid]
          have := hcap yc' hyc'
          omega

theorem WF_delete_user_registration {u c : Int} {all : Bool} {s : DB}
    (hwf : WF s) : WF (delete_user_registration u c all s) := by
  obtain ⟨hnd, hpw, hcnt, hcap⟩ := hwf
  have hclasses := delete_user_registration_classes u c all s
  have hfilterWF : WF { s with regs := s.regs.filter (fun r => !(regMatch u c r)) } := by
    refine ⟨hnd, ?_, ?_, ?_⟩
    · exact List.Pairwise.sublist (List.filter_sublist _) hpw
    · intro r hr
      exact hcnt r (List.mem_of_mem_filter hr)
    · intro yc hyc
      rw [get_total_participants_eq]
      calc totalFor yc.id (s.regs.filter fun r => !(regMatch u c r))
          ≤ totalFor yc.id s.regs :=
            totalFor_filter_le _ _ (fun r hr => le_trans (by omega) (hcnt r hr))
        _ ≤ yc.max_participants := hcap yc hyc
  unfold delete_user_registration
  cases all with
  | true => exact hfilterWF
  | false =>
    simp only [Bool.false_eq_true, if_false]
    cases hfind : s.regs.find? (regMatch u c) with
    | none => exact hfilterWF
    | some cur =>
      by_cases hgt : cur.participant_count > 1
      · simp only [hgt, if_true]
        obtain ⟨A, B, hsplit, hA, hB, hcur⟩ :=
          exists_split_of_filter_eq_singleton (filter_pair_of_find hpw hfind)
        refine ⟨hnd, ?_, ?_, ?_⟩
        · rw [PairUnique, List.pairwise_map]
          refine hpw.imp_of_mem ?_
          intro a b _ _ hab
          intro hh
          apply hab
          revert hh
          split <;> split <;> simp_all
        · intro r hr
          obtain ⟨r0, hr0, hr0e⟩ := List.mem_map.mp hr
          subst hr0e
          by_cases hm : regMatch u c r0
          · rw [if_pos hm]
            simp only
            have : r0 = cur := by
              have h1 : r0 ∈ s.regs.filter (regMatch u c) :=
                List.mem_filter.mpr ⟨hr0, hm⟩
              rw [filter_pair_of_find hpw hfind] at h1
              simpa using h1
            subst this
            omega
          · rw [if_neg hm]
            exact hcnt r0 hr0
        · intro yc hyc
          rw [get_total_participants_eq]
          calc totalFor yc.id (s.regs.map _)
              ≤ totalFor yc.id s.regs := by
                apply totalFor_map_le
                · intro r _; split <;> rfl
                · intro r _
                  by_cases hm : regMatch u c r
                  · rw [if_pos hm]
                    show r.participant_count - 1 ≤ r.participant_count
                    omega
                  · rw [if_neg hm]
            _ ≤ yc.max_participants := hcap yc hyc
      · simp only [hgt, if_false]
        exact hfilterWF

/-- One user-facing mutation of the ledger: a reserve click
(`register_handler`) or a release (`delete_user_registration`). -/
inductive Op where
  | reserve (user_id class_id : Int)
  | release (user_id class_id : Int) (all_participants : Bool)
deriving DecidableEq, Repr

/-- Apply one operation to the store. -/
def applyOp (op : Op) (s : DB) : DB :=
  match op with
  | .reserve u c => (register_handler u c s).2
  | .release u c all => delete_user_registration u c all s

/-- The store after every prefix of a sequence of operations (the initial
store included). -/
def statesFrom (s : DB) : List Op → List DB
  | [] => [s]
  | op :: ops => s :: statesFrom (applyOp op s) ops

theorem WF_applyOp {s : DB} (op : Op) (hwf : WF s) : WF (applyOp op s) := by
  cases op with
  | reserve u c => exact WF_register_handler hwf
  | release u c all => exact WF_delete_user_registration hwf

theorem WF_statesFrom {s : DB} (hwf : WF s) :
    ∀ ops : List Op, ∀ t ∈ statesFrom s ops, WF t := by
  intro ops
  induction ops generalizing s with
  | nil =>
    intro t ht
    simp only [statesFrom, List.mem_singleton] at ht
    subst ht; exact hwf
  | cons op ops ih =>
    intro t ht
    simp only [statesFrom, List.mem_cons] at ht
    rcases ht with h | h
    · subst h; exact hwf
    · exact ih (WF_applyOp op hwf) t h

/-- C1: starting from a well-formed store, after every prefix of any
sequence of reserve/release operations every session's seat total is at
most its capacity; and in any state, a reserve whose admission would
exceed the capacity of the looked-up session is rejected with the store
unchanged. -/
theorem c1_capacity_invariant (s : DB) (hwf : WF s) (ops : List Op) :
    (∀ t ∈ statesFrom s ops, ∀ yc ∈ t.classes,
        get_total_participants yc.id t ≤ yc.max_participants) ∧
    (∀ t : DB, ∀ u c : Int, ∀ yc : YogaClass, lookupClass c t = some yc →
        yc.max_participants ≤ get_total_participants c t →
        register_handler u c t = (false, t)) := by
  constructor
  · intro t ht yc hyc
    exact (WF_statesFrom hwf ops t ht).2.2.2 yc hyc
  · intro t u c yc hlk hfull
    unfold register_handler
    rw [hlk]
    show (if get_total_participants c t ≥ yc.max_participants then (false, t)
      else (true, register_user u c 1 t)) = (false, t)
    rw [if_pos hfull]

/-- Witness for C1: capacity-2 class; two successful reserves by user 7,
then user 8 is rejected, and a release; totals stay within capacity. -/
theorem c1_capacity_invariant_witness :
    (∀ t ∈ statesFrom ⟨[⟨1, "A", 2⟩], []⟩
        [Op.reserve 7 1, Op.reserve 7 1, Op.reserve 8 1, Op.release 7 1 false],
      ∀ yc ∈ t.classes, get_total_participants yc.id t ≤ yc.max_participants) ∧
    (∀ t : DB, ∀ u c : Int, ∀ yc : YogaClass, lookupClass c t = some yc →
        yc.max_participants ≤ get_total_participants c t →
        register_handler u c t = (false, t)) :=
  c1_capacity_invariant ⟨[⟨1, "A", 2⟩], []⟩ (by decide)
    [Op.reserve 7 1, Op.reserve 7 1, Op.reserve 8 1, Op.release 7 1 false]

/-! ### C7: single row per (user, session) pair -/

theorem register_filter_absent {u c : Int} {s : DB} (n : Int)
    (habsent : s.regs.filter (regMatch u c) = []) :
    (register_user u c n s).regs.filter (regMatch u c) = [⟨u, c, n⟩] := by
  rw [register_user_regs_absent n (find?_eq_none_of_filter_eq_nil habsent),
    List.filter_append, habsent]
  simp [List.filter_cons, regMatch]

theorem register_filter_singleton {u c : Int} {s : DB} {r : Registration}
    (n : Int) (h : s.regs.filter (regMatch u c) = [r]) :
    (register_user u c n s).regs.filter (regMatch u c)
      = [⟨u, c, r.participant_count + n⟩] := by
  have hfind := find?_eq_some_of_filter_eq_singleton h
  rw [register_user_regs_present n hfind]
  obtain ⟨A, B, hsplit, hA, hB, hr⟩ := exists_split_of_filter_eq_singleton h
  rw [hsplit, List.map_append, List.map_cons,
    map_eq_self_of_id_on (fun a ha => by simp [registerUpd, hA a ha]),
    map_eq_self_of_id_on (fun b hb => by simp [registerUpd, hB b hb]),
    List.filter_append, List.filter_cons]
  have hupd : regMatch u c (registerUpd u c (r.participant_count + n) r) = true := by
    rw [registerUpd, if_pos hr]
    obtain ⟨h1, h2⟩ := regMatch_iff.mp hr
    exact regMatch_iff.mpr ⟨h1, h2⟩
  rw [if_pos hupd, List.filter_eq_nil_iff.mpr hA, List.filter_eq_nil_iff.mpr hB]
  have : registerUpd u c (r.participant_count + n) r
      = ⟨u, c, r.participant_count + n⟩ := by
    rw [registerUpd, if_pos hr]
    obtain ⟨h1, h2⟩ := regMatch_iff.mp hr
    cases r; simp_all
  rw [this]
  rfl

theorem register_fold_singleton {u c : Int} :
    ∀ (L : List Int) {s : DB} {m : Int},
    s.regs.filter (regMatch u c) = [⟨u, c, m⟩] →
    ((L.foldl (fun t n => register_user u c n t) s).regs.filter (regMatch u c))
      = [⟨u, c, m + L.sum⟩] := by
  intro L
  induction L with
  | nil =>
    intro s m h
    simpa using h
  | cons n rest ih =>
    intro s m h
    have hstep := register_filter_singleton n h
    simp only [List.foldl_cons]
    rw [ih hstep]
    have : m + n + rest.sum = m + (n :: rest).sum := by
      simp [List.sum_cons]; omega
    rw [this]

/-- C7: starting from a store with no registration row for the pair, after
any nonempty sequence of `register_user` calls by the same user on the
same session exactly one registration row exists for the pair, and its
seat count equals the sum of all seat arguments passed. -/
theorem c7_single_row_per_pair (s : DB) (u c : Int) (n : Int) (L : List Int)
    (habsent : s.regs.filter (regMatch u c) = []) :
    (((n :: L).foldl (fun t k => register_user u c k t) s).regs.filter
        (regMatch u c))
      = [⟨u, c, (n :: L).sum⟩] := by
  simp only [List.foldl_cons]
  rw [register_fold_singleton L (register_filter_absent n habsent)]
  rw [List.sum_cons]

/-- Witness for C7: user 7 reserves 1 then 2 seats on class 1; exactly one
row with 3 seats results. -/
theorem c7_single_row_per_pair_witness :
    ((([1, 2] : List Int).foldl (fun t k => register_user 7 1 k t)
        ⟨[⟨1, "A", 5⟩], []⟩).regs.filter (regMatch 7 1))
      = [⟨7, 1, (([1, 2] : List Int)).sum⟩] :=
  c7_single_row_per_pair ⟨[⟨1, "A", 5⟩], []⟩ 7 1 1 [2] (by decide)

/-! ### Lemmas about the reindexer's building blocks -/

theorem listInsertAt_length (xs : List α) (n : Nat) (x : α) :
    (listInsertAt xs n x).length = xs.length + 1 := by
  simp [listInsertAt]
  omega

theorem listInsertAt_of_append (A B : List α) (x : α) :
    listInsertAt (A ++ B) A.length x = A ++ x :: B := by
  simp [listInsertAt, List.take_left, List.drop_left]

theorem listInsertAt_perm (xs : List α) (n : Nat) (x : α) :
    (listInsertAt xs n x).Perm (x :: xs) := by
  unfold listInsertAt
  calc (xs.take n ++ x :: xs.drop n).Perm (x :: (xs.take n ++ xs.drop n)) :=
        List.perm_middle
    _ = x :: xs := by rw [List.take_append_drop]

theorem mem_listInsertAt {xs : List α} {n : Nat} {x a : α} :
    a ∈ listInsertAt xs n x ↔ a = x ∨ a ∈ xs := by
  rw [(listInsertAt_perm xs n x).mem_iff, List.mem_cons]

theorem erase_of_split {A B : List Int} {cid : Int} (hA : cid ∉ A) :
    (A ++ cid :: B).erase cid = A ++ B := by
  rw [List.erase_append_right _ (by simpa using hA), List.erase_cons_head]

theorem idMapGo_eq_none {old : Int} :
    ∀ {l : List Int} {k : Int}, old ∉ l → idMapGo old k l = none := by
  intro l
  induction l with
  | nil => intro k _; rfl
  | cons x xs ih =>
    intro k h
    have hx : ¬(x = old) := fun hh => h (by simp [hh])
    have hxs : old ∉ xs := fun hh => h (by simp [hh])
    simp [idMapGo, ih hxs, hx]

theorem idMapGo_le {old : Int} :
    ∀ {l : List Int} {k n : Int}, idMapGo old k l = some n → k ≤ n := by
  intro l
  induction l with
  | nil => intro k n h; simp [idMapGo] at h
  | cons x xs ih =>
    intro k n h
    rw [idMapGo] at h
    cases hin : idMapGo old (k + 1) xs with
    | some m =>
      rw [hin] at h
      have := ih hin
      simp only [Option.some.injEq] at h
      omega
    | none =>
      rw [hin] at h
      by_cases hx : x = old
      · rw [if_pos hx] at h
        injection h with h
        omega
      · rw [if_neg hx] at h
        exact absurd h (by simp)

theorem idMapGo_append {old : Int} {B : List Int} (hB : old ∉ B) :
    ∀ (A : List Int) (k : Int),
    idMapGo old k (A ++ old :: B) = some (k + A.length) := by
  intro A
  induction A with
  | nil =>
    intro k
    simp only [List.nil_append, idMapGo, idMapGo_eq_none hB, if_pos rfl,
      List.length_nil]
    norm_num
  | cons a A ih =>
    intro k
    rw [List.cons_append, idMapGo, ih (k + 1)]
    simp only [List.length_cons, Option.some.injEq]
    push_cast
    omega

theorem exists_split_last {old : Int} :
    ∀ {l : List Int}, old ∈ l → ∃ A B, l = A ++ old :: B ∧ old ∉ B := by
  intro l
  induction l with
  | nil => intro h; simp at h
  | cons x xs ih =>
    intro h
    by_cases hxs : old ∈ xs
    · obtain ⟨A, B, hl, hB⟩ := ih hxs
      exact ⟨x :: A, B, by simp [hl], hB⟩
    · have hx : x = old := by
        rcases List.mem_cons.mp h with h1 | h1
        · exact h1.symm
        · exact absurd h1 hxs
      exact ⟨[], xs, by simp [hx], hxs⟩

theorem idMapOf_of_split {old : Int} {A B : List Int} (hB : old ∉ B) :
    idMapOf (A ++ old :: B) old = some ((A.length : Int) + 1) := by
  rw [idMapOf, idMapGo_append hB A 1]
  congr 1
  omega

theorem idMapOf_isSome {old : Int} {L : List Int} (h : old ∈ L) :
    (idMapOf L old).isSome := by
  obtain ⟨A, B, hl, hB⟩ := exists_split_last h
  rw [hl, idMapOf_of_split hB]
  rfl

theorem idMapGo_inj {a b : Int} :
    ∀ {l : List Int} {k n : Int},
    idMapGo a k l = some n → idMapGo b k l = some n → a = b := by
  intro l
  induction l with
  | nil => intro k n h; simp [idMapGo] at h
  | cons x xs ih =>
    intro k n ha hb
    rw [idMapGo] at ha hb
    cases hia : idMapGo a (k + 1) xs with
    | some ma =>
      rw [hia] at ha
      injection ha with ha
      cases hib : idMapGo b (k + 1) xs with
      | some mb =>
        rw [hib] at hb
        injection hb with hb
        exact ih hia (by rw [hib, ha, hb])
      | none =>
        rw [hib] at hb
        by_cases hx : x = b
        · rw [if_pos hx] at hb
          injection hb with hb
          have := idMapGo_le hia
          omega
        · rw [if_neg hx] at hb
          exact absurd hb (by simp)
    | none =>
      rw [hia] at ha
      by_cases hx : x = a
      · rw [if_pos hx] at ha
        injection ha with ha
        cases hib : idMapGo b (k + 1) xs with
        | some mb =>
          rw [hib] at hb
          injection hb with hb
          have := idMapGo_le hib
          omega
        | none =>
          rw [hib] at hb
          by_cases hy : x = b
          · rw [← hx, ← hy]
          · rw [if_neg hy] at hb
            exact absurd hb (by simp)
      · rw [if_neg hx] at ha
        exact absurd ha (by simp)

theorem idMapOf_inj {L : List Int} {a b n : Int}
    (ha : idMapOf L a = some n) (hb : idMapOf L b = some n) : a = b :=
  idMapGo_inj ha hb

/-- The ascending run `k, k+1, ..., k+n-1` of the fresh identifiers. -/
def idsFrom (k : Int) : Nat → List Int
  | 0 => []
  | n + 1 => k :: idsFrom (k + 1) n

@[simp]
theorem idsFrom_length (k : Int) : ∀ n, (idsFrom k n).length = n := by
  intro n
  induction n generalizing k with
  | zero => rfl
  | succ m ih => simp [idsFrom, ih]

theorem mem_idsFrom {m k : Int} : ∀ {n : Nat}, m ∈ idsFrom k n → k ≤ m := by
  intro n
  induction n generalizing k with
  | zero => intro h; simp [idsFrom] at h
  | succ j ih =>
    intro h
    rcases List.mem_cons.mp h with h1 | h1
    · omega
    · have := ih h1
      omega

theorem pairwise_idsFrom (k : Int) : ∀ n, (idsFrom k n).Pairwise (· ≤ ·) := by
  intro n
  induction n generalizing k with
  | zero => simp [idsFrom]
  | succ m ih =>
    rw [idsFrom, List.pairwise_cons]
    exact ⟨fun m hm => le_trans (by omega) (mem_idsFrom hm), ih (k + 1)⟩

theorem getElem_idsFrom :
    ∀ (n : Nat) (k : Int) (j : Nat) (h : j < (idsFrom k n).length),
    (idsFrom k n).get ⟨j, h⟩ = k + j := by
  intro n
  induction n with
  | zero => intro k j h; simp at h
  | succ m ih =>
    intro k j h
    cases j with
    | zero => simp [idsFrom]
    | succ i =>
      have h' : i < (idsFrom (k + 1) m).length := by
        simp at h ⊢
        omega
      show (idsFrom (k + 1) m).get ⟨i, h'⟩ = k + (i + 1 : Nat)
      rw [ih (k + 1) i h']
      push_cast
      omega

theorem filter_id_eq_singleton {cs : List YogaClass}
    (hnd : (cs.map (·.id)).Nodup) {c : YogaClass} (hc : c ∈ cs) :
    cs.filter (fun x => x.id == c.id) = [c] := by
  induction cs with
  | nil => simp at hc
  | cons y ys ih =>
    rw [List.map_cons, List.nodup_cons] at hnd
    obtain ⟨hy, hys⟩ := hnd
    rcases List.mem_cons.mp hc with h1 | h1
    · subst h1
      rw [List.filter_cons, if_pos (by simp)]
      have : ys.filter (fun x => x.id == c.id) = [] := by
        rw [List.filter_eq_nil_iff]
        intro b hb hbc
        apply hy
        simp only [beq_iff_eq] at hbc
        rw [← hbc]
        exact List.mem_map.mpr ⟨b, hb, rfl⟩
      rw [this]
    · have hyne : ¬(y.id == c.id) := by
        simp only [beq_iff_eq]
        intro hh
        apply hy
        rw [hh]
        exact List.mem_map.mpr ⟨c, h1, rfl⟩
      rw [List.filter_cons, if_neg (by simpa using hyne)]
      exact ih hys h1

theorem buildClassesGo_cons_singleton {temp : List YogaClass} {o : Int}
    {c : YogaClass} (rest : List Int) (k : Int)
    (h : temp.filter (fun x => x.id == o) = [c]) :
    buildClassesGo temp k (o :: rest)
      = ⟨k, c.name, c.max_participants⟩ :: buildClassesGo temp (k + 1) rest := by
  simp [buildClassesGo, h]

theorem buildClassesGo_ids (temp : List YogaClass) :
    ∀ (order : List Int) (k : Int),
    (∀ o ∈ order, ∃ c, temp.filter (fun x => x.id == o) = [c]) →
    (buildClassesGo temp k order).map (·.id) = idsFrom k order.length := by
  intro order
  induction order with
  | nil => intro k _; rfl
  | cons o rest ih =>
    intro k h
    obtain ⟨c, hc⟩ := h o (by simp)
    rw [buildClassesGo_cons_singleton rest k hc, List.map_cons,
      ih (k + 1) (fun x hx => h x (by simp [hx]))]
    rfl

theorem sorted_of_ids_idsFrom {cs : List YogaClass} {k : Int} {n : Nat}
    (h : cs.map (·.id) = idsFrom k n) :
    cs.Sorted (fun a b => a.id ≤ b.id) := by
  have := pairwise_idsFrom k n
  rw [← h, List.pairwise_map] at this
  exact this

theorem sortClasses_of_ids_idsFrom {cs : List YogaClass} {k : Int} {n : Nat}
    (h : cs.map (·.id) = idsFrom k n) : sortClasses cs = cs :=
  List.Sorted.insertionSort_eq (sorted_of_ids_idsFrom h)

theorem remapFn_user (order : List Int) (r : Registration) :
    (remapFn order r).user_id = r.user_id := rfl

theorem remapFn_count (order : List Int) (r : Registration) :
    (remapFn order r).participant_count = r.participant_count := rfl

theorem remapFn_class {order : List Int} {r : Registration} {n : Int}
    (h : idMapOf order r.class_id = some n) :
    (remapFn order r).class_id = n := by
  simp [remapFn, h]

theorem remapRegs_ok (order : List Int) :
    ∀ {rs : List Registration}, (∀ r ∈ rs, r.class_id ∈ order) →
    remapRegs order rs = .ok (rs.map (remapFn order)) := by
  intro rs
  induction rs with
  | nil => intro _; rfl
  | cons r rest ih =>
    intro h
    have hr := idMapOf_isSome (h r (by simp))
    obtain ⟨n, hn⟩ := Option.isSome_iff_exists.mp hr
    rw [remapRegs, hn, ih (fun x hx => h x (by simp [hx]))]
    have : remapFn order r = { r with class_id := n } := by
      simp [remapFn, hn]
    rw [List.map_cons, this]
    rfl

theorem mem_reorderIds {L : List Int} {cid pos a : Int} (ha : a ∈ L) :
    a ∈ reorderIds cid pos L := by
  unfold reorderIds pyInsert
  rw [mem_listInsertAt]
  by_cases hc : a = cid
  · exact Or.inl hc
  · exact Or.inr ((List.mem_erase_of_ne hc).mpr ha)

theorem tryRewrite_none_ok {order : List Int} {s : DB}
    {rs : List Registration} (h : remapRegs order s.regs = .ok rs) :
    tryRewrite none order s = .ok ⟨buildClassesGo s.classes 1 order, rs⟩ := by
  simp [tryRewrite, chkFail, h, Bind.bind, Except.bind, Pure.pure, Except.pure]

theorem tryRewrite_none_err {order : List Int} {s : DB} {e : Unit}
    (h : remapRegs order s.regs = .error e) :
    tryRewrite none order s = .error e := by
  simp [tryRewrite, chkFail, h, Bind.bind, Except.bind]

theorem get_yoga_classes_ids_nil_iff {s : DB} :
    (get_yoga_classes s).map (·.id) = [] ↔ s.classes = [] := by
  constructor
  · intro h
    have : (get_yoga_classes s).length = 0 := by
      rw [← List.length_map (get_yoga_classes s) (·.id), h]
      rfl
    have hlen : s.classes.length = 0 := by
      rw [← (List.perm_insertionSort (fun a b => a.id ≤ b.id) s.classes).length_eq]
      exact this
    exact List.eq_nil_of_length_eq_zero hlen
  · intro h
    rw [get_yoga_classes, h]
    rfl

/-! ### C3: failure atomicity of the reindexer -/

/-- C3: `update_class_order` is failure-atomic — whenever it returns
`false` the store is exactly the pre-call store (this covers every
exception, which rolls the transaction back); it returns `false` when the
schedule is empty or the session id does not exist; and in the absence of
injected failures it returns `true` whenever the id exists and no
registration row dangles. -/
theorem c3_reindex_failure_atomic (failAt : Option Nat) (cid pos : Int) (s : DB) :
    ((update_class_order failAt cid pos s).1 = false →
        (update_class_order failAt cid pos s).2 = s) ∧
    (s.classes = [] → update_class_order failAt cid pos s = (false, s)) ∧
    (cid ∉ (get_yoga_classes s).map (·.id) →
        update_class_order failAt cid pos s = (false, s)) ∧
    (failAt = none → cid ∈ (get_yoga_classes s).map (·.id) →
        (∀ r ∈ s.regs, r.class_id ∈ (get_yoga_classes s).map (·.id)) →
        (update_class_order failAt cid pos s).1 = true) := by
  refine ⟨?_, ?_, ?_, ?_⟩
  · unfold update_class_order
    by_cases hnil : (get_yoga_classes s).map (·.id) = []
    · simp [hnil]
    · by_cases hmem : cid ∈ (get_yoga_classes s).map (·.id)
      · simp only [hnil, if_false, hmem, if_true]
        cases htry : tryRewrite failAt
            (reorderIds cid pos ((get_yoga_classes s).map (·.id))) s with
        | ok d => intro hfalse; simp at hfalse
        | error e => intro _; rfl
      · simp [hnil, hmem]
  · intro hempty
    have : (get_yoga_classes s).map (·.id) = [] :=
      get_yoga_classes_ids_nil_iff.mpr hempty
    unfold update_class_order
    simp [this]
  · intro hmem
    unfold update_class_order
    by_cases hnil : (get_yoga_classes s).map (·.id) = []
    · simp [hnil]
    · simp [hnil, hmem]
  · intro hfa hmem hdang
    subst hfa
    have hnil : ¬((get_yoga_classes s).map (·.id) = []) :=
      List.ne_nil_of_mem hmem
    have hok := remapRegs_ok
      (reorderIds cid pos ((get_yoga_classes s).map (·.id)))
      (fun r hr => mem_reorderIds (hdang r hr))
    unfold update_class_order
    simp only [hnil, if_false, hmem, if_true, tryRewrite_none_ok hok]

/-- Witness for C3: injected failure at the registration-transfer step
rolls back; empty schedule and unknown id return false unchanged; the
well-formed case succeeds. -/
theorem c3_reindex_failure_atomic_witness :
    ((update_class_order (some 4) 1 0 ⟨[⟨1, "A", 5⟩, ⟨2, "B", 5⟩], [⟨7, 1, 2⟩]⟩).1 = false →
        (update_class_order (some 4) 1 0 ⟨[⟨1, "A", 5⟩, ⟨2, "B", 5⟩], [⟨7, 1, 2⟩]⟩).2
          = ⟨[⟨1, "A", 5⟩, ⟨2, "B", 5⟩], [⟨7, 1, 2⟩]⟩) ∧
    (update_class_order none 9 0 ⟨[⟨1, "A", 5⟩, ⟨2, "B", 5⟩], [⟨7, 1, 2⟩]⟩
        = (false, ⟨[⟨1, "A", 5⟩, ⟨2, "B", 5⟩], [⟨7, 1, 2⟩]⟩)) ∧
    (update_class_order none 1 1 ⟨[⟨1, "A", 5⟩, ⟨2, "B", 5⟩], [⟨7, 1, 2⟩]⟩).1 = true := by
  refine ⟨?_, ?_, ?_⟩
  · exact (c3_reindex_failure_atomic (some 4) 1 0
      ⟨[⟨1, "A", 5⟩, ⟨2, "B", 5⟩], [⟨7, 1, 2⟩]⟩).1
  · exact (c3_reindex_failure_atomic none 9 0
      ⟨[⟨1, "A", 5⟩, ⟨2, "B", 5⟩], [⟨7, 1, 2⟩]⟩).2.2.1 (by decide)
  · exact (c3_reindex_failure_atomic none 1 1
      ⟨[⟨1, "A", 5⟩, ⟨2, "B", 5⟩], [⟨7, 1, 2⟩]⟩).2.2.2 rfl (by decide) (by decide)

/-! ### C2: the successful reindex preserves the reservation data -/

theorem update_class_order_success (pos : Int) {cid : Int} {s : DB}
    {L : List Int} (hL : (get_yoga_classes s).map (·.id) = L)
    (hmem : cid ∈ L) (hdang : ∀ r ∈ s.regs, r.class_id ∈ L) :
    update_class_order none cid pos s
      = (true,
         ⟨buildClassesGo s.classes 1 (reorderIds cid pos L),
          s.regs.map (remapFn (reorderIds cid pos L))⟩) := by
  subst hL
  have hnil : ¬((get_yoga_classes s).map (·.id) = []) := List.ne_nil_of_mem hmem
  have hok := remapRegs_ok
    (reorderIds cid pos ((get_yoga_classes s).map (·.id)))
    (fun r hr => mem_reorderIds (hdang r hr))
  unfold update_class_order
  simp only [hnil, if_false, hmem, if_true, tryRewrite_none_ok hok]

theorem get_map_general {α β : Type _} (f : α → β) (l : List α) (j : Nat)
    (h1 : j < l.length) (h2 : j < (l.map f).length) :
    (l.map f).get ⟨j, h2⟩ = f (l.get ⟨j, h1⟩) := by
  simp

theorem get_congr {α : Type _} {l m : List α} (h : l = m) (j : Nat)
    (h1 : j < l.length) (h2 : j < m.length) :
    l.get ⟨j, h1⟩ = m.get ⟨j, h2⟩ := by
  subst h
  rfl

theorem reorderIds_eq (L : List Int) (cid : Int) (p : Nat) (hp1 : 1 ≤ p)
    (hpN : p ≤ L.length) (hmem : cid ∈ L) :
    reorderIds cid ((p : Int) - 1) L = listInsertAt (L.erase cid) (p - 1) cid := by
  have hpos : 0 < L.length := List.length_pos_of_mem hmem
  have hlen : (L.erase cid).length = L.length - 1 := List.length_erase_of_mem hmem
  have hcast : ((L.erase cid).length : Int) = (L.length : Int) - 1 := by
    rw [hlen]
    omega
  have hmin : min ((p : Int) - 1) ((L.erase cid).length : Int) = (p : Int) - 1 := by
    rw [hcast]
    omega
  have hneg : ¬((p : Int) - 1 < 0) := by omega
  simp only [reorderIds, pyInsert, hmin, if_neg hneg]
  congr 1
  omega

theorem perm_reorderIds {L : List Int} {cid : Int} (n : Nat) (hmem : cid ∈ L) :
    (listInsertAt (L.erase cid) n cid).Perm L :=
  (listInsertAt_perm _ _ _).trans (List.perm_cons_erase hmem).symm

theorem order_filter_singletons {s : DB} {L : List Int}
    (hL : (get_yoga_classes s).map (·.id) = L)
    (hN : L.Nodup) {order : List Int}
    (hsub : ∀ o ∈ order, o ∈ L) :
    ∀ o ∈ order, ∃ c, s.classes.filter (fun x => x.id == o) = [c] := by
  subst hL
  have hperm : ((get_yoga_classes s).map (·.id)).Perm (s.classes.map (·.id)) :=
    (List.perm_insertionSort _ s.classes).map _
  have hNraw : (s.classes.map (·.id)).Nodup := hperm.nodup_iff.mp hN
  intro o ho
  have : o ∈ s.classes.map (·.id) := hperm.mem_iff.mp (hsub o ho)
  obtain ⟨c, hc, hcid⟩ := List.mem_map.mp this
  refine ⟨c, ?_⟩
  rw [← hcid]
  exact filter_id_eq_singleton hNraw hc

set_option maxHeartbeats 2000000 in
/-- C2: a reindex at any valid 1-based target rank `p` succeeds, leaves
the number of registration rows and the sum of all seat counts unchanged,
rewrites the registration table exactly through the old→new id mapping
(users and counts untouched), maps every registration that referenced the
moved session to id `p`, and the session occupying rank `p` afterwards has
exactly id `p`. -/
theorem c2_reindex_preserves_totals (s : DB) (cid : Int) (p : Nat)
    (hN : ((get_yoga_classes s).map (·.id)).Nodup)
    (hmem : cid ∈ (get_yoga_classes s).map (·.id))
    (hdang : ∀ r ∈ s.regs, r.class_id ∈ (get_yoga_classes s).map (·.id))
    (hp1 : 1 ≤ p) (hpN : p ≤ (get_yoga_classes s).length) :
    (update_class_order none cid ((p : Int) - 1) s).1 = true ∧
    (update_class_order none cid ((p : Int) - 1) s).2.regs.length = s.regs.length ∧
    ((update_class_order none cid ((p : Int) - 1) s).2.regs.map
        (·.participant_count)).sum = (s.regs.map (·.participant_count)).sum ∧
    (update_class_order none cid ((p : Int) - 1) s).2.regs
      = s.regs.map (remapFn (reorderIds cid ((p : Int) - 1)
          ((get_yoga_classes s).map (·.id)))) ∧
    (∀ r ∈ s.regs, r.class_id = cid →
      (remapFn (reorderIds cid ((p : Int) - 1)
          ((get_yoga_classes s).map (·.id))) r).class_id = (p : Int)) ∧
    ∃ h : p - 1 <
        (get_yoga_classes (update_class_order none cid ((p : Int) - 1) s).2).length,
      ((get_yoga_classes (update_class_order none cid ((p : Int) - 1) s).2).get
        ⟨p - 1, h⟩).id = (p : Int) := by
  obtain ⟨L, hL⟩ : ∃ L, (get_yoga_classes s).map (·.id) = L := ⟨_, rfl⟩
  rw [hL] at hN hmem hdang ⊢
  have hupd := update_class_order_success ((p : Int) - 1) hL hmem hdang
  have hLlen : L.length = (get_yoga_classes s).length := by
    rw [← hL]
    exact List.length_map _ _
  have hre := reorderIds_eq L cid p hp1 (by omega) hmem
  have hcnotin : cid ∉ L.erase cid := fun h =>
    absurd ((hN.mem_erase_iff).mp h).1 (by simp)
  have hB : cid ∉ (L.erase cid).drop (p - 1) :=
    fun h => hcnotin (List.mem_of_mem_drop h)
  have helen : (L.erase cid).length = (get_yoga_classes s).length - 1 := by
    rw [List.length_erase_of_mem hmem, hLlen]
  have hA : ((L.erase cid).take (p - 1)).length = p - 1 := by
    rw [List.length_take, helen]
    omega
  have hmap_cid : idMapOf (reorderIds cid ((p : Int) - 1) L) cid
      = some (p : Int) := by
    rw [hre]
    unfold listInsertAt
    rw [idMapOf_of_split hB, hA]
    congr 1
    omega
  have hperm : (reorderIds cid ((p : Int) - 1) L).Perm L := by
    rw [hre]
    exact perm_reorderIds _ hmem
  have hsing := order_filter_singletons hL hN (fun o ho => hperm.mem_iff.mp ho)
  have hids := buildClassesGo_ids s.classes (reorderIds cid ((p : Int) - 1) L)
    1 hsing
  have holen : (reorderIds cid ((p : Int) - 1) L).length
      = (get_yoga_classes s).length := by
    rw [hperm.length_eq, hLlen]
  refine ⟨by rw [hupd], ?_, ?_, by rw [hupd], ?_, ?_⟩
  · rw [hupd]
    simp
  · rw [hupd]
    show ((s.regs.map _).map _).sum = _
    rw [List.map_map]
    rfl
  · intro r hr hcid
    have h1 : idMapOf (reorderIds cid ((p : Int) - 1) L) r.class_id
        = some (p : Int) := by
      rw [hcid]
      exact hmap_cid
    exact remapFn_class h1
  · rw [hupd]
    have hlen2 : (buildClassesGo s.classes 1
        (reorderIds cid ((p : Int) - 1) L)).length
        = (get_yoga_classes s).length := by
      have h1 := congrArg List.length hids
      rw [List.length_map, idsFrom_length] at h1
      rw [h1, holen]
    have hsort : get_yoga_classes
        (⟨buildClassesGo s.classes 1 (reorderIds cid ((p : Int) - 1) L),
          s.regs.map (remapFn (reorderIds cid ((p : Int) - 1) L))⟩ : DB)
        = buildClassesGo s.classes 1 (reorderIds cid ((p : Int) - 1) L) := by
      show sortClasses _ = _
      exact sortClasses_of_ids_idsFrom hids
    rw [hsort]
    have hplt : p - 1 < (get_yoga_classes s).length := by
      have := List.length_pos_of_mem hmem
      omega
    refine ⟨by rw [hlen2]; exact hplt, ?_⟩
    have hget : ∀ (hh : p - 1 < (buildClassesGo s.classes 1
        (reorderIds cid ((p : Int) - 1) L)).length),
        ((buildClassesGo s.classes 1 (reorderIds cid ((p : Int) - 1) L)).get
          ⟨p - 1, hh⟩).id = (p : Int) := by
      intro hh
      have hmaplen : p - 1 < ((buildClassesGo s.classes 1
          (reorderIds cid ((p : Int) - 1) L)).map (·.id)).length := by
        rw [List.length_map]
        exact hh
      have hmaplen2 : p - 1 < (idsFrom 1
          ((reorderIds cid ((p : Int) - 1) L).length)).length := by
        rw [idsFrom_length, holen]
        exact hplt
      rw [← get_map_general (·.id) _ (p - 1) hh hmaplen,
        get_congr hids (p - 1) hmaplen hmaplen2,
        getElem_idsFrom _ 1 (p - 1) hmaplen2]
      omega
    exact hget _

/-- Witness for C2: three sessions with one reservation each; the third is
moved to rank 1 and all conclusions hold concretely. -/
theorem c2_reindex_preserves_totals_witness :
    (update_class_order none 3 ((1 : Int) - 1)
        ⟨[⟨1, "X", 5⟩, ⟨2, "Y", 5⟩, ⟨3, "Z", 5⟩],
         [⟨10, 1, 1⟩, ⟨11, 2, 1⟩, ⟨12, 3, 1⟩]⟩).1 = true ∧
    (update_class_order none 3 ((1 : Int) - 1)
        ⟨[⟨1, "X", 5⟩, ⟨2, "Y", 5⟩, ⟨3, "Z", 5⟩],
         [⟨10, 1, 1⟩, ⟨11, 2, 1⟩, ⟨12, 3, 1⟩]⟩).2.regs.length
      = ([⟨10, 1, 1⟩, ⟨11, 2, 1⟩, ⟨12, 3, 1⟩] : List Registration).length ∧
    ((update_class_order none 3 ((1 : Int) - 1)
        ⟨[⟨1, "X", 5⟩, ⟨2, "Y", 5⟩, ⟨3, "Z", 5⟩],
         [⟨10, 1, 1⟩, ⟨11, 2, 1⟩, ⟨12, 3, 1⟩]⟩).2.regs.map
        (·.participant_count)).sum
      = (([⟨10, 1, 1⟩, ⟨11, 2, 1⟩, ⟨12, 3, 1⟩] : List Registration).map
        (·.participant_count)).sum ∧
    (update_class_order none 3 ((1 : Int) - 1)
        ⟨[⟨1, "X", 5⟩, ⟨2, "Y", 5⟩, ⟨3, "Z", 5⟩],
         [⟨10, 1, 1⟩, ⟨11, 2, 1⟩, ⟨12, 3, 1⟩]⟩).2.regs
      = ([⟨10, 1, 1⟩, ⟨11, 2, 1⟩, ⟨12, 3, 1⟩] : List Registration).map
          (remapFn (reorderIds 3 ((1 : Int) - 1)
            ((get_yoga_classes ⟨[⟨1, "X", 5⟩, ⟨2, "Y", 5⟩, ⟨3, "Z", 5⟩],
              [⟨10, 1, 1⟩, ⟨11, 2, 1⟩, ⟨12, 3, 1⟩]⟩).map (·.id)))) ∧
    (∀ r ∈ ([⟨10, 1, 1⟩, ⟨11, 2, 1⟩, ⟨12, 3, 1⟩] : List Registration),
      r.class_id = 3 →
      (remapFn (reorderIds 3 ((1 : Int) - 1)
          ((get_yoga_classes ⟨[⟨1, "X", 5⟩, ⟨2, "Y", 5⟩, ⟨3, "Z", 5⟩],
            [⟨10, 1, 1⟩, ⟨11, 2, 1⟩, ⟨12, 3, 1⟩]⟩).map (·.id))) r).class_id
        = ((1 : Nat) : Int)) ∧
    ∃ h : 1 - 1 < (get_yoga_classes (update_class_order none 3 ((1 : Int) - 1)
        ⟨[⟨1, "X", 5⟩, ⟨2, "Y", 5⟩, ⟨3, "Z", 5⟩],
         [⟨10, 1, 1⟩, ⟨11, 2, 1⟩, ⟨12, 3, 1⟩]⟩).2).length,
      ((get_yoga_classes (update_class_order none 3 ((1 : Int) - 1)
          ⟨[⟨1, "X", 5⟩, ⟨2, "Y", 5⟩, ⟨3, "Z", 5⟩],
           [⟨10, 1, 1⟩, ⟨11, 2, 1⟩, ⟨12, 3, 1⟩]⟩).2).get ⟨1 - 1, h⟩).id
        = ((1 : Nat) : Int) :=
  c2_reindex_preserves_totals
    ⟨[⟨1, "X", 5⟩, ⟨2, "Y", 5⟩, ⟨3, "Z", 5⟩],
     [⟨10, 1, 1⟩, ⟨11, 2, 1⟩, ⟨12, 3, 1⟩]⟩ 3 1
    (by decide) (by decide) (by decide) (by decide) (by decide)

/-! ### C6: the composed reorder algorithm and its clamp -/

/-- The display name attached to a class id in a table (the name column of
the unique row with that id; classes have unique ids). -/
def className (temp : List YogaClass) (o : Int) : String :=
  ((temp.filter (fun c => c.id == o)).map (·.name)).headD ""

theorem buildClassesGo_names (temp : List YogaClass) :
    ∀ (order : List Int) (k : Int),
    (∀ o ∈ order, ∃ c, temp.filter (fun x => x.id == o) = [c]) →
    (buildClassesGo temp k order).map (·.name) = order.map (className temp) := by
  intro order
  induction order with
  | nil => intro k _; rfl
  | cons o rest ih =>
    intro k h
    obtain ⟨c, hc⟩ := h o (by simp)
    rw [buildClassesGo_cons_singleton rest k hc, List.map_cons,
      ih (k + 1) (fun x hx => h x (by simp [hx])), List.map_cons]
    have : className temp o = c.name := by
      rw [className, hc]
      rfl
    rw [this]

/-- C6 counterexample: with two sessions A (id 1) and B (id 2), moving
session 1 to position 2 makes the code's resulting display order
`[B, A]` (session A ends up last), whereas the claim's literal algorithm —
clamp the target into `[1, count]` where count is the length *after*
removal, i.e. into `[1, 1]` — reinserts A at position 1 and predicts
`[A, B]`. -/
theorem c6_counterexample :
    (process_reorder_position 1 2
        (⟨[⟨1, "A", 5⟩, ⟨2, "B", 5⟩], []⟩ : DB)).2.classes.map (·.name)
      = ["B", "A"] ∧
    (specReorderIds 1 2 ((get_yoga_classes
        (⟨[⟨1, "A", 5⟩, ⟨2, "B", 5⟩], []⟩ : DB)).map (·.id))).map
        (className [⟨1, "A", 5⟩, ⟨2, "B", 5⟩])
      = ["A", "B"] ∧
    (["B", "A"] : List String) ≠ ["A", "B"] := by
  refine ⟨by decide, by decide, by decide⟩

theorem amended_index (L : List Int) (cid p : Int) (hp : 1 ≤ p)
    (hmem : cid ∈ L) :
    amendedReorderIds cid p L
      = listInsertAt (L.erase cid) (min p (L.length : Int) - 1).toNat cid := by
  have hpos : (0 : Int) < L.length := by
    exact_mod_cast List.length_pos_of_mem hmem
  have hlen : ((L.erase cid).length : Int) = (L.length : Int) - 1 := by
    rw [List.length_erase_of_mem hmem]
    omega
  have h1 : min p (((L.erase cid).length : Int) + 1) = min p (L.length : Int) := by
    rw [hlen]
    congr 1
    omega
  have h2 : max 1 (min p (L.length : Int)) = min p (L.length : Int) :=
    max_eq_right (le_min hp hpos)
  simp only [amendedReorderIds, h1, h2]

theorem code_index (L : List Int) (cid p : Int) (hp : 1 ≤ p) (hmem : cid ∈ L) :
    reorderIds cid
        (if p > (L.length : Int) then (L.length : Int) - 1 else p - 1) L
      = listInsertAt (L.erase cid) (min p (L.length : Int) - 1).toNat cid := by
  have hpos : (0 : Int) < L.length := by
    exact_mod_cast List.length_pos_of_mem hmem
  have hlen : ((L.erase cid).length : Int) = (L.length : Int) - 1 := by
    rw [List.length_erase_of_mem hmem]
    omega
  by_cases hc : p > (L.length : Int)
  · rw [if_pos hc]
    have hm1 : min ((L.length : Int) - 1) ((L.erase cid).length : Int)
        = (L.length : Int) - 1 := by
      rw [hlen]
      exact min_self _
    have hneg : ¬((L.length : Int) - 1 < 0) := by omega
    simp only [reorderIds, pyInsert, hm1, if_neg hneg]
    have hpm : min p (L.length : Int) = (L.length : Int) :=
      min_eq_right (by omega)
    rw [hpm]
  · rw [if_neg hc]
    have hm1 : min (p - 1) ((L.erase cid).length : Int) = p - 1 := by
      rw [hlen]
      omega
    have hneg : ¬(p - 1 < 0) := by omega
    simp only [reorderIds, pyInsert, hm1, if_neg hneg]
    have hpm : min p (L.length : Int) = p := min_eq_left (by omega)
    rw [hpm]

/-- C6 (amended): the composed reorder flow follows the spec's algorithm
with the clamp corrected to `[1, count + 1]` (count = list length after
removal, so positions at or past the end land at the end): it succeeds,
assigns fresh sequential identifiers 1..N in the amended order, the class
names end up ordered exactly as the amended reinsertion dictates, and
every reservation is remapped through the amended old→new mapping. -/
theorem c6_reorder_algorithm_amended (s : DB) (cid : Int) (p : Int)
    (hp : 1 ≤ p)
    (hN : ((get_yoga_classes s).map (·.id)).Nodup)
    (hmem : cid ∈ (get_yoga_classes s).map (·.id))
    (hdang : ∀ r ∈ s.regs, r.class_id ∈ (get_yoga_classes s).map (·.id)) :
    (process_reorder_position cid p s).1 = true ∧
    ((process_reorder_position cid p s).2.classes.map (·.id)
      = idsFrom 1 (get_yoga_classes s).length) ∧
    ((process_reorder_position cid p s).2.classes.map (·.name)
      = (amendedReorderIds cid p ((get_yoga_classes s).map (·.id))).map
          (className s.classes)) ∧
    ((process_reorder_position cid p s).2.regs
      = s.regs.map (remapFn (amendedReorderIds cid p
          ((get_yoga_classes s).map (·.id))))) := by
  obtain ⟨L, hL⟩ : ∃ L, (get_yoga_classes s).map (·.id) = L := ⟨_, rfl⟩
  rw [hL] at hN hmem hdang ⊢
  have hLlen : L.length = (get_yoga_classes s).length := by
    rw [← hL]
    exact List.length_map _ _
  have htot : ((get_yoga_classes s).length : Int) = (L.length : Int) := by
    rw [hLlen]
  have hproc : process_reorder_position cid p s
      = update_class_order none cid
          (if p > (L.length : Int) then (L.length : Int) - 1 else p - 1) s := by
    simp only [process_reorder_position, if_neg (show ¬(p ≤ 0) by omega), htot]
  have hupd := update_class_order_success
    (if p > (L.length : Int) then (L.length : Int) - 1 else p - 1) hL hmem hdang
  have hidx : reorderIds cid
      (if p > (L.length : Int) then (L.length : Int) - 1 else p - 1) L
      = amendedReorderIds cid p L := by
    rw [code_index L cid p hp hmem, amended_index L cid p hp hmem]
  rw [hidx] at hupd
  rw [hproc, hupd]
  have hperm : (amendedReorderIds cid p L).Perm L := by
    rw [amended_index L cid p hp hmem]
    exact perm_reorderIds _ hmem
  have hsing := order_filter_singletons hL hN (fun o ho => hperm.mem_iff.mp ho)
  have hids := buildClassesGo_ids s.classes (amendedReorderIds cid p L) 1 hsing
  have holen : (amendedReorderIds cid p L).length = (get_yoga_classes s).length := by
    rw [hperm.length_eq, hLlen]
  refine ⟨rfl, ?_, ?_, rfl⟩
  · rw [hids, holen]
  · exact buildClassesGo_names s.classes (amendedReorderIds cid p L) 1 hsing

/-- Witness for C6's amended theorem: moving session 1 of two to position
5 clamps to the end and renumbers ids to 1..2. -/
theorem c6_reorder_algorithm_amended_witness :
    (process_reorder_position 1 5 (⟨[⟨1, "A", 5⟩, ⟨2, "B", 5⟩], [⟨7, 1, 2⟩]⟩ : DB)).1
      = true ∧
    ((process_reorder_position 1 5
        (⟨[⟨1, "A", 5⟩, ⟨2, "B", 5⟩], [⟨7, 1, 2⟩]⟩ : DB)).2.classes.map (·.id)
      = idsFrom 1 (get_yoga_classes
          (⟨[⟨1, "A", 5⟩, ⟨2, "B", 5⟩], [⟨7, 1, 2⟩]⟩ : DB)).length) ∧
    ((process_reorder_position 1 5
        (⟨[⟨1, "A", 5⟩, ⟨2, "B", 5⟩], [⟨7, 1, 2⟩]⟩ : DB)).2.classes.map (·.name)
      = (amendedReorderIds 1 5 ((get_yoga_classes
          (⟨[⟨1, "A", 5⟩, ⟨2, "B", 5⟩], [⟨7, 1, 2⟩]⟩ : DB)).map (·.id))).map
          (className [⟨1, "A", 5⟩, ⟨2, "B", 5⟩])) ∧
    ((process_reorder_position 1 5
        (⟨[⟨1, "A", 5⟩, ⟨2, "B", 5⟩], [⟨7, 1, 2⟩]⟩ : DB)).2.regs
      = ([⟨7, 1, 2⟩] : List Registration).map (remapFn (amendedReorderIds 1 5
          ((get_yoga_classes (⟨[⟨1, "A", 5⟩, ⟨2, "B", 5⟩], [⟨7, 1, 2⟩]⟩ : DB)).map
            (·.id))))) :=
  c6_reorder_algorithm_amended ⟨[⟨1, "A", 5⟩, ⟨2, "B", 5⟩], [⟨7, 1, 2⟩]⟩ 1 5
    (by decide) (by decide) (by decide) (by decide)

/-! ### C9: reindex at the current rank is observably a no-op -/

/-- The per-user query surface with the (renumbered) session id column
dropped: for each session in schedule order, the user's seat count rows as
`(session name, seatCount)`. -/
def userView (user_id : Int) (s : DB) : List (String × Int) :=
  (get_user_registrations user_id s).map (fun t => (t.2.1, t.2.2))

/-- The availability query surface with the session id dropped: for each
session in schedule order, `(name, capacity, seats taken)`. -/
def scheduleView (s : DB) : List (String × Int × Int) :=
  (get_yoga_classes s).map
    (fun yc => (yc.name, yc.max_participants, get_total_participants yc.id s))

theorem remap_filter_class (L : List Int) {rs : List Registration}
    (hdang : ∀ r ∈ rs, r.class_id ∈ L) {o k : Int}
    (ho : idMapOf L o = some k) :
    (rs.map (remapFn L)).filter (fun r => r.class_id == k)
      = (rs.filter (fun r => r.class_id == o)).map (remapFn L) := by
  rw [List.filter_map]
  congr 1
  apply List.filter_congr
  intro r hr
  show ((remapFn L r).class_id == k) = (r.class_id == o)
  obtain ⟨m, hm⟩ := Option.isSome_iff_exists.mp (idMapOf_isSome (hdang r hr))
  rw [remapFn_class hm]
  by_cases hro : r.class_id = o
  · have hmk : m = k := by
      rw [hro] at hm
      rw [hm] at ho
      injection ho
    simp [hmk, hro]
  · have hmk : ¬(m = k) := fun hh => hro (idMapOf_inj (hh ▸ hm) ho)
    rw [Bool.eq_iff_iff]
    simp [hmk, hro]

theorem remap_filter_user_class (L : List Int) {rs : List Registration}
    (hdang : ∀ r ∈ rs, r.class_id ∈ L) (u : Int) {o k : Int}
    (ho : idMapOf L o = some k) :
    (rs.map (remapFn L)).filter (fun r => r.user_id == u && r.class_id == k)
      = (rs.filter (fun r => r.user_id == u && r.class_id == o)).map (remapFn L) := by
  rw [List.filter_map]
  congr 1
  apply List.filter_congr
  intro r hr
  show ((remapFn L r).user_id == u && (remapFn L r).class_id == k)
      = (r.user_id == u && r.class_id == o)
  obtain ⟨m, hm⟩ := Option.isSome_iff_exists.mp (idMapOf_isSome (hdang r hr))
  rw [remapFn_class hm, remapFn_user]
  by_cases hro : r.class_id = o
  · have hmk : m = k := by
      rw [hro] at hm
      rw [hm] at ho
      injection ho
    simp [hmk, hro]
  · have hmk : ¬(m = k) := fun hh => hro (idMapOf_inj (hh ▸ hm) ho)
    rw [Bool.eq_iff_iff]
    simp [hmk, hro]

theorem totalFor_remap (L : List Int) {rs : List Registration}
    (hdang : ∀ r ∈ rs, r.class_id ∈ L) {o k : Int}
    (ho : idMapOf L o = some k) :
    totalFor k (rs.map (remapFn L)) = totalFor o rs := by
  unfold totalFor
  rw [remap_filter_class L hdang ho, List.map_map]
  rfl

theorem map_id_nodup_raw {s : DB} {L : List Int}
    (hL : (get_yoga_classes s).map (·.id) = L) (hN : L.Nodup) :
    (s.classes.map (·.id)).Nodup := by
  have hperm : ((get_yoga_classes s).map (·.id)).Perm (s.classes.map (·.id)) :=
    (List.perm_insertionSort _ s.classes).map _
  apply hperm.nodup_iff.mp
  rw [hL]
  exact hN

theorem split_facts {s : DB} {L : List Int}
    (hL : (get_yoga_classes s).map (·.id) = L) (hN : L.Nodup)
    {P : List YogaClass} {c : YogaClass} {rest : List YogaClass}
    (hPQ : get_yoga_classes s = P ++ c :: rest) :
    s.classes.filter (fun x => x.id == c.id) = [c] ∧
    idMapOf L c.id = some ((P.length : Int) + 1) := by
  have hperm : (get_yoga_classes s).Perm s.classes := List.perm_insertionSort _ _
  have hraw := map_id_nodup_raw hL hN
  have hcmem : c ∈ s.classes := hperm.mem_iff.mp (by rw [hPQ]; simp)
  refine ⟨filter_id_eq_singleton hraw hcmem, ?_⟩
  have hLdec : L = P.map (·.id) ++ c.id :: rest.map (·.id) := by
    rw [← hL, hPQ]
    simp
  have hnotin : c.id ∉ rest.map (·.id) := by
    have h0 := hN
    rw [hLdec] at h0
    exact (List.nodup_cons.mp (List.nodup_append.mp h0).2.1).1
  rw [hLdec, idMapOf_of_split hnotin, List.length_map]

theorem userView_core (s : DB) (L : List Int)
    (hL : (get_yoga_classes s).map (·.id) = L)
    (hN : L.Nodup) (hdang : ∀ r ∈ s.regs, r.class_id ∈ L) (u : Int) :
    ∀ (Q P : List YogaClass), get_yoga_classes s = P ++ Q →
    joinRows (fun yc => ((s.regs.map (remapFn L)).filter
        (fun r => r.user_id == u && r.class_id == yc.id)).map
        (fun r => (yc.name, r.participant_count)))
      (buildClassesGo s.classes ((P.length : Int) + 1) (Q.map (·.id)))
    = joinRows (fun yc => (s.regs.filter
        (fun r => r.user_id == u && r.class_id == yc.id)).map
        (fun r => (yc.name, r.participant_count))) Q := by
  intro Q
  induction Q with
  | nil => intro P _; rfl
  | cons c rest ih =>
    intro P hPQ
    obtain ⟨hfilt, hk⟩ := split_facts hL hN hPQ
    rw [List.map_cons, buildClassesGo_cons_singleton _ _ hfilt,
      joinRows_cons, joinRows_cons]
    have hblock := remap_filter_user_class L hdang u hk
    congr 1
    · show ((s.regs.map (remapFn L)).filter
          (fun r => r.user_id == u && r.class_id == ((P.length : Int) + 1))).map
          (fun r => (c.name, r.participant_count))
        = (s.regs.filter (fun r => r.user_id == u && r.class_id == c.id)).map
          (fun r => (c.name, r.participant_count))
      rw [hblock, List.map_map]
      rfl
    · have hPQ2 : get_yoga_classes s = (P ++ [c]) ++ rest := by
        rw [hPQ]
        simp
      have hcast : ((P ++ [c]).length : Int) + 1 = ((P.length : Int) + 1) + 1 := by
        simp
      have := ih (P ++ [c]) hPQ2
      rw [hcast] at this
      exact this

theorem scheduleView_core (s : DB) (L : List Int)
    (hL : (get_yoga_classes s).map (·.id) = L)
    (hN : L.Nodup) (hdang : ∀ r ∈ s.regs, r.class_id ∈ L) :
    ∀ (Q P : List YogaClass), get_yoga_classes s = P ++ Q →
    (buildClassesGo s.classes ((P.length : Int) + 1) (Q.map (·.id))).map
      (fun yc => (yc.name, yc.max_participants,
        totalFor yc.id (s.regs.map (remapFn L))))
    = Q.map (fun yc => (yc.name, yc.max_participants, totalFor yc.id s.regs)) := by
  intro Q
  induction Q with
  | nil => intro P _; rfl
  | cons c rest ih =>
    intro P hPQ
    obtain ⟨hfilt, hk⟩ := split_facts hL hN hPQ
    rw [List.map_cons, buildClassesGo_cons_singleton _ _ hfilt,
      List.map_cons, List.map_cons]
    congr 1
    · show (c.name, c.max_participants,
          totalFor ((P.length : Int) + 1) (s.regs.map (remapFn L)))
        = (c.name, c.max_participants, totalFor c.id s.regs)
      rw [totalFor_remap L hdang hk]
    · have hPQ2 : get_yoga_classes s = (P ++ [c]) ++ rest := by
        rw [hPQ]
        simp
      have hcast : ((P ++ [c]).length : Int) + 1 = ((P.length : Int) + 1) + 1 := by
        simp
      have := ih (P ++ [c]) hPQ2
      rw [hcast] at this
      exact this

theorem DB_regs_mk (cs : List YogaClass) (rs : List Registration) :
    (⟨cs, rs⟩ : DB).regs = rs := rfl

theorem DB_classes_mk (cs : List YogaClass) (rs : List Registration) :
    (⟨cs, rs⟩ : DB).classes = cs := rfl

theorem userView_eq_joinRows (u : Int) (t : DB) :
    userView u t = joinRows (fun yc => (t.regs.filter
        (fun r => r.user_id == u && r.class_id == yc.id)).map
        (fun r => (yc.name, r.participant_count))) (get_yoga_classes t) := by
  unfold userView get_user_registrations
  rw [joinRows_map]
  congr 1
  funext yc
  rw [List.map_map]
  rfl

theorem scheduleView_eq (t : DB) :
    scheduleView t = (get_yoga_classes t).map
      (fun yc => (yc.name, yc.max_participants, totalFor yc.id t.regs)) := rfl

/-- C9: moving a session to its own current rank succeeds and is a no-op
on all observable reservation data: every user's per-session list of
`(name, seatCount)` rows and the availability listing `(name, capacity,
seats taken)` — the query surfaces minus the renumbered identifier column
— are unchanged. -/
theorem c9_reindex_current_rank (s : DB) (cid : Int) (A B : List Int)
    (hsplit : (get_yoga_classes s).map (·.id) = A ++ cid :: B)
    (hN : ((get_yoga_classes s).map (·.id)).Nodup)
    (hdang : ∀ r ∈ s.regs, r.class_id ∈ (get_yoga_classes s).map (·.id)) :
    (process_reorder_position cid ((A.length : Int) + 1) s).1 = true ∧
    (∀ u : Int, userView u
        (process_reorder_position cid ((A.length : Int) + 1) s).2 = userView u s) ∧
    scheduleView (process_reorder_position cid ((A.length : Int) + 1) s).2
      = scheduleView s := by
  have hL := hsplit
  rw [hsplit] at hN hdang
  have hmem : cid ∈ A ++ cid :: B := by simp
  have hAnotin : cid ∉ A := fun h =>
    (List.nodup_append.mp hN).2.2 h (by simp)
  have hlen1 : (A ++ cid :: B).length = (get_yoga_classes s).length := by
    rw [← hsplit]
    exact List.length_map _ _
  have hp0 : ¬((A.length : Int) + 1 ≤ 0) := by omega
  have hple : ¬((A.length : Int) + 1 > ((get_yoga_classes s).length : Int)) := by
    have h1 : (get_yoga_classes s).length = A.length + 1 + B.length := by
      rw [← hlen1]
      simp
      omega
    rw [h1]
    push_cast
    omega
  have hproc : process_reorder_position cid ((A.length : Int) + 1) s
      = update_class_order none cid ((A.length : Int) + 1 - 1) s := by
    simp only [process_reorder_position, if_neg hp0, if_neg hple]
  have hidx : (A.length : Int) + 1 - 1 = (A.length : Int) := by omega
  rw [hidx] at hproc
  have horder : reorderIds cid (A.length : Int) (A ++ cid :: B)
      = A ++ cid :: B := by
    have hm : min (A.length : Int) (((A ++ B).length : Nat) : Int)
        = (A.length : Int) := by
      apply min_eq_left
      rw [List.length_append]
      push_cast
      omega
    have htn : (A.length : Int).toNat = A.length := by omega
    simp only [reorderIds, pyInsert, erase_of_split hAnotin, hm,
      if_neg (show ¬((A.length : Int) < 0) by omega), htn,
      listInsertAt_of_append]
  have hupd := update_class_order_success (A.length : Int) hL hmem hdang
  rw [horder] at hupd
  have hfinal : (process_reorder_position cid ((A.length : Int) + 1) s).2
      = ⟨buildClassesGo s.classes 1 (A ++ cid :: B),
         s.regs.map (remapFn (A ++ cid :: B))⟩ := by
    rw [hproc, hupd]
  have hsing := order_filter_singletons hL hN (fun o ho => ho)
  have hids := buildClassesGo_ids s.classes (A ++ cid :: B) 1 hsing
  have hsorted : get_yoga_classes
      (⟨buildClassesGo s.classes 1 (A ++ cid :: B),
        s.regs.map (remapFn (A ++ cid :: B))⟩ : DB)
      = buildClassesGo s.classes 1 (A ++ cid :: B) := by
    show sortClasses _ = _
    exact sortClasses_of_ids_idsFrom hids
  have hone : ((([] : List YogaClass).length : Int) + 1) = 1 := by simp
  refine ⟨by rw [hproc, hupd], ?_, ?_⟩
  · intro u
    rw [hfinal, userView_eq_joinRows, userView_eq_joinRows, hsorted, DB_regs_mk]
    have hcore := userView_core s (A ++ cid :: B) hL hN hdang u
      (get_yoga_classes s) [] (by simp)
    rw [hone, hsplit] at hcore
    exact hcore
  · rw [hfinal, scheduleView_eq, scheduleView_eq, hsorted, DB_regs_mk]
    have hcore := scheduleView_core s (A ++ cid :: B) hL hN hdang
      (get_yoga_classes s) [] (by simp)
    rw [hone, hsplit] at hcore
    exact hcore

/-- Witness for C9: three sessions, user 10 on the first and user 12 on
the third; moving session 2 to its current rank 2 changes no view. -/
theorem c9_reindex_current_rank_witness :
    (process_reorder_position 2 ((([1] : List Int).length : Int) + 1)
        ⟨[⟨1, "X", 5⟩, ⟨2, "Y", 5⟩, ⟨3, "Z", 5⟩],
         [⟨10, 1, 1⟩, ⟨12, 3, 2⟩]⟩).1 = true ∧
    (∀ u : Int, userView u
        (process_reorder_position 2 ((([1] : List Int).length : Int) + 1)
          ⟨[⟨1, "X", 5⟩, ⟨2, "Y", 5⟩, ⟨3, "Z", 5⟩],
           [⟨10, 1, 1⟩, ⟨12, 3, 2⟩]⟩).2
      = userView u ⟨[⟨1, "X", 5⟩, ⟨2, "Y", 5⟩, ⟨3, "Z", 5⟩],
           [⟨10, 1, 1⟩, ⟨12, 3, 2⟩]⟩) ∧
    scheduleView (process_reorder_position 2 ((([1] : List Int).length : Int) + 1)
        ⟨[⟨1, "X", 5⟩, ⟨2, "Y", 5⟩, ⟨3, "Z", 5⟩],
         [⟨10, 1, 1⟩, ⟨12, 3, 2⟩]⟩).2
      = scheduleView ⟨[⟨1, "X", 5⟩, ⟨2, "Y", 5⟩, ⟨3, "Z", 5⟩],
         [⟨10, 1, 1⟩, ⟨12, 3, 2⟩]⟩ :=
  c9_reindex_current_rank
    ⟨[⟨1, "X", 5⟩, ⟨2, "Y", 5⟩, ⟨3, "Z", 5⟩], [⟨10, 1, 1⟩, ⟨12, 3, 2⟩]⟩
    2 [1] [3] (by decide) (by decide) (by decide)

end YogaBot
